import Mathlib

/-!
Verification development for the MCMG repository (Markov-chain music
generation).  The Python sources `lib/mcmg/note.py`, `lib/mcmg/event.py` and
`lib/mcmg/instrument.py` are shallowly embedded below: Python strings become
`List Char`, Python floats become `ℚ` (exact arithmetic in place of IEEE
floats), Python `Fraction` becomes `ℚ`, raised exceptions become `Option` /
`Except`, and the random draws consumed by `Instrument.compose` become
explicit parameters (the initial `randint` result and the stream of
`random.random()` values).
-/

set_option maxHeartbeats 1000000

/-! ## Python string primitives -/

/-- Python `s.partition(c)` for a one-character separator, splitting at the
first occurrence; `none` when the separator does not occur (Python then
returns an empty middle component, which the callers below treat as the
failure case). -/
def pyPartition (c : Char) : List Char → Option (List Char × List Char)
  | [] => none
  | a :: s =>
    if a = c then some ([], s)
    else
      match pyPartition c s with
      | none => none
      | some (x, y) => some (a :: x, y)

/-- Python `s.lstrip(c)`: remove every leading occurrence of `c`. -/
def pyLStrip (c : Char) : List Char → List Char
  | [] => []
  | a :: s => if a = c then pyLStrip c s else a :: s

/-- Python `s.split(c)` for a one-character separator.  Always returns at
least one (possibly empty) piece. -/
def pySplit (c : Char) : List Char → List (List Char)
  | [] => [[]]
  | a :: s =>
    match pySplit c s with
    | [] => [[]]
    | h :: t => if a = c then [] :: h :: t else (a :: h) :: t

/-- Whether the two-character pattern `>>` occurs somewhere in the string. -/
def hasGG : List Char → Bool
  | [] => false
  | [_] => false
  | a :: b :: rest => (a == '>' && b == '>') || hasGG (b :: rest)

/-- Python `s.rpartition(">>")`: split at the rightmost occurrence of `>>`;
`none` when `>>` does not occur. -/
def pyRPartGG : List Char → Option (List Char × List Char)
  | [] => none
  | a :: s =>
    match pyRPartGG s with
    | some (x, y) => some (a :: x, y)
    | none =>
      if a = '>' ∧ s.head? = some '>' then some ([], s.tail) else none

/-- Python `s.strip()`: drop leading and trailing whitespace. -/
def pyStrip (s : List Char) : List Char :=
  ((s.dropWhile Char.isWhitespace).reverse.dropWhile Char.isWhitespace).reverse

/-- Python list indexing `l[i]` with negative-index wraparound; `none` models
an `IndexError`. -/
def pyIndex {α : Type} (l : List α) (i : Int) : Option α :=
  if 0 ≤ i then l.get? i.toNat
  else if 0 ≤ (l.length : Int) + i then l.get? ((l.length : Int) + i).toNat
  else none

/-! ## Lemmas about the string primitives -/

theorem pyPartition_of_not_mem {c : Char} {pre : List Char} (post : List Char)
    (h : c ∉ pre) : pyPartition c (pre ++ c :: post) = some (pre, post) := by
  induction pre with
  | nil => simp [pyPartition]
  | cons a s ih =>
    have hac : a ≠ c := fun hh => h (hh ▸ List.mem_cons_self a s)
    have hs : c ∉ s := fun hh => h (List.mem_cons_of_mem a hh)
    simp [pyPartition, hac, ih hs]

theorem pyPartition_eq_none {c : Char} {s : List Char} (h : c ∉ s) :
    pyPartition c s = none := by
  induction s with
  | nil => rfl
  | cons a t ih =>
    have hac : a ≠ c := fun hh => h (hh ▸ List.mem_cons_self a t)
    have ht : c ∉ t := fun hh => h (List.mem_cons_of_mem a hh)
    simp [pyPartition, hac, ih ht]

theorem pyLStrip_of_head_ne {c a : Char} {s : List Char} (h : a ≠ c) :
    pyLStrip c (a :: s) = a :: s := by
  simp [pyLStrip, h]

theorem pySplit_ne_nil (c : Char) (s : List Char) : pySplit c s ≠ [] := by
  induction s with
  | nil => simp [pySplit]
  | cons a t ih =>
    simp only [pySplit]
    cases h : pySplit c t with
    | nil => simp
    | cons h' t' => by_cases hac : a = c <;> simp [hac]

theorem pySplit_of_not_mem {c : Char} {s : List Char} (h : c ∉ s) :
    pySplit c s = [s] := by
  induction s with
  | nil => rfl
  | cons a t ih =>
    have hac : a ≠ c := fun hh => h (hh ▸ List.mem_cons_self a t)
    have ht : c ∉ t := fun hh => h (List.mem_cons_of_mem a hh)
    simp [pySplit, ih ht, hac]

theorem pySplit_append {c : Char} {x : List Char} (y : List Char)
    (h : c ∉ x) : pySplit c (x ++ c :: y) = x :: pySplit c y := by
  induction x with
  | nil =>
    simp only [List.nil_append, pySplit]
    cases hy : pySplit c y with
    | nil => exact absurd hy (pySplit_ne_nil c y)
    | cons h' t' => simp
  | cons a s ih =>
    have hac : a ≠ c := fun hh => h (hh ▸ List.mem_cons_self a s)
    have hs : c ∉ s := fun hh => h (List.mem_cons_of_mem a hh)
    rw [List.cons_append]
    simp only [pySplit]
    rw [ih hs]
    simp [hac]

theorem pySplit_intercalate {c : Char} {ls : List (List Char)}
    (hne : ls ≠ []) (h : ∀ l ∈ ls, c ∉ l) :
    pySplit c (List.intercalate [c] ls) = ls := by
  induction ls with
  | nil => exact absurd rfl hne
  | cons a t ih =>
    cases t with
    | nil =>
      simp only [List.intercalate, List.intersperse, List.join]
      simpa using pySplit_of_not_mem (h a (List.mem_cons_self a []))
    | cons b u =>
      have hstep : List.intercalate [c] (a :: b :: u) =
          a ++ c :: List.intercalate [c] (b :: u) := by
        simp [List.intercalate, List.intersperse]
      rw [hstep, pySplit_append _ (h a (List.mem_cons_self _ _)),
        ih (by simp) (fun l hl => h l (List.mem_cons_of_mem a hl))]

theorem hasGG_eq_false_of_not_mem {s : List Char} (h : '>' ∉ s) :
    hasGG s = false := by
  induction s with
  | nil => rfl
  | cons a t ih =>
    have ha : a ≠ '>' := fun hh => h (hh ▸ List.mem_cons_self a t)
    have ht : '>' ∉ t := fun hh => h (List.mem_cons_of_mem a hh)
    cases t with
    | nil => rfl
    | cons b u =>
      have : hasGG (b :: u) = false := ih ht
      simp [hasGG, this, ha]

theorem hasGG_cons_cons_false {a b : Char} {u : List Char}
    (h : hasGG (a :: b :: u) = false) :
    ¬(a = '>' ∧ b = '>') ∧ hasGG (b :: u) = false := by
  simp only [hasGG, Bool.or_eq_false_iff, Bool.and_eq_false_iff,
    beq_eq_false_iff_ne, ne_eq] at h
  obtain ⟨h1, h2⟩ := h
  exact ⟨fun ⟨ha, hb⟩ => h1.elim (fun x => x ha) (fun x => x hb), h2⟩

theorem pyRPartGG_unfold_cons (a : Char) (s : List Char) :
    pyRPartGG (a :: s) =
      match pyRPartGG s with
      | some (x, y) => some (a :: x, y)
      | none =>
        if a = '>' ∧ s.head? = some '>' then some ([], s.tail) else none := rfl

theorem pyRPartGG_eq_none {s : List Char} (h : hasGG s = false) :
    pyRPartGG s = none := by
  induction s with
  | nil => rfl
  | cons a t ih =>
    cases t with
    | nil => simp [pyRPartGG]
    | cons b u =>
      obtain ⟨hab, hrec⟩ := hasGG_cons_cons_false h
      rw [pyRPartGG_unfold_cons, ih hrec]
      have hcond : ¬(a = '>' ∧ (b :: u).head? = some '>') := by
        rintro ⟨ha, hb⟩
        simp only [List.head?_cons, Option.some.injEq] at hb
        exact hab ⟨ha, hb⟩
      simp only [ih hrec]
      rw [if_neg hcond]

theorem pyRPartGG_append {B : List Char} (A : List Char)
    (h : hasGG ('>' :: B) = false) :
    pyRPartGG (A ++ '>' :: '>' :: B) = some (A, B) := by
  induction A with
  | nil =>
    have hnone : pyRPartGG ('>' :: B) = none := pyRPartGG_eq_none h
    rw [List.nil_append, pyRPartGG_unfold_cons, hnone]
    simp
  | cons a s ih =>
    rw [List.cons_append, pyRPartGG_unfold_cons, ih]

theorem pyStrip_of_no_ws {s : List Char}
    (h : ∀ c ∈ s, c.isWhitespace = false) : pyStrip s = s := by
  have hdrop : ∀ t : List Char, (∀ c ∈ t, c.isWhitespace = false) →
      t.dropWhile Char.isWhitespace = t := by
    intro t ht
    cases t with
    | nil => rfl
    | cons a u =>
      simp [List.dropWhile, ht a (List.mem_cons_self a u)]
  unfold pyStrip
  rw [hdrop s h, hdrop s.reverse (fun c hc => h c (List.mem_reverse.mp hc)),
    List.reverse_reverse]

theorem pyIndex_mem {α : Type} {l : List α} {i : Int} {a : α}
    (h : pyIndex l i = some a) : a ∈ l := by
  unfold pyIndex at h
  split at h
  · exact List.get?_mem h
  · split at h
    · exact List.get?_mem h
    · exact absurd h (by simp)

/-! ## Decimal integer printing and parsing (Python `str`/`int`) -/

/-- The decimal digit character for `n < 10`. -/
def digitChar (n : Nat) : Char := Char.ofNat (48 + n)

/-- Numeric value of a digit character. -/
def digitVal (c : Char) : Nat := c.toNat - 48

/-- Fuel-driven decimal printer (structural recursion so that the kernel can
evaluate it). -/
def natReprAux : Nat → Nat → List Char
  | 0, _ => []
  | fuel + 1, n =>
    if n < 10 then [digitChar n]
    else natReprAux fuel (n / 10) ++ [digitChar (n % 10)]

/-- Python `str` of a natural number. -/
def natRepr (n : Nat) : List Char := natReprAux (n + 1) n

/-- Python `str` of an `int`. -/
def intRepr (i : Int) : List Char :=
  if i < 0 then '-' :: natRepr i.natAbs else natRepr i.toNat

/-- Accumulating decimal parser over digit characters. -/
def natParseAux (acc : Nat) : List Char → Option Nat
  | [] => some acc
  | c :: s => if c.isDigit then natParseAux (acc * 10 + digitVal c) s else none

/-- Parse a nonempty all-digit string. -/
def natParse : List Char → Option Nat
  | [] => none
  | l => natParseAux 0 l

/-- Model of Python `int(s)` on canonical integer literals: an optional sign
followed by decimal digits (whitespace and underscore forms are not needed by
the embedded code paths). -/
def pyParseInt (s : List Char) : Option Int :=
  match s with
  | '-' :: rest => (natParse rest).map (fun n => -(n : Int))
  | '+' :: rest => (natParse rest).map (fun n => (n : Int))
  | _ => (natParse s).map (fun n => (n : Int))

theorem digitChar_isDigit {d : Nat} (h : d < 10) :
    (digitChar d).isDigit = true := by
  interval_cases d <;> decide

theorem digitVal_digitChar {d : Nat} (h : d < 10) : digitVal (digitChar d) = d := by
  interval_cases d <;> decide

theorem natReprAux_chars {fuel n : Nat} (h : n < fuel) :
    ∀ c ∈ natReprAux fuel n, c.isDigit = true := by
  induction fuel generalizing n with
  | zero => omega
  | succ f ih =>
    intro c hc
    simp only [natReprAux] at hc
    split at hc
    · rename_i h10
      simp only [List.mem_singleton] at hc
      exact hc ▸ digitChar_isDigit h10
    · rename_i h10
      rcases List.mem_append.mp hc with hl | hr
      · exact ih (by omega) c hl
      · simp only [List.mem_singleton] at hr
        exact hr ▸ digitChar_isDigit (Nat.mod_lt _ (by omega))

theorem natRepr_chars {n : Nat} : ∀ c ∈ natRepr n, c.isDigit = true :=
  natReprAux_chars (Nat.lt_succ_self n)

theorem natReprAux_ne_nil {fuel n : Nat} (h : n < fuel) :
    natReprAux fuel n ≠ [] := by
  cases fuel with
  | zero => omega
  | succ f =>
    simp only [natReprAux]
    split <;> simp

theorem natRepr_ne_nil (n : Nat) : natRepr n ≠ [] :=
  natReprAux_ne_nil (Nat.lt_succ_self n)

theorem natParseAux_append (acc : Nat) (l₁ l₂ : List Char) :
    natParseAux acc (l₁ ++ l₂) =
      (natParseAux acc l₁).bind (fun a => natParseAux a l₂) := by
  induction l₁ generalizing acc with
  | nil => simp [natParseAux]
  | cons c s ih =>
    by_cases hd : c.isDigit <;> simp [natParseAux, hd, ih]

theorem natParseAux_natReprAux {fuel n : Nat} (h : n < fuel) (acc : Nat) :
    natParseAux acc (natReprAux fuel n) =
      some (acc * 10 ^ (natReprAux fuel n).length + n) := by
  induction fuel generalizing n acc with
  | zero => omega
  | succ f ih =>
    simp only [natReprAux]
    split
    · rename_i h10
      simp [natParseAux, digitChar_isDigit h10, digitVal_digitChar h10]
    · rename_i h10
      push_neg at h10
      have hdiv : n / 10 < f := by
        have h1 : n / 10 < n := Nat.div_lt_self (by omega) (by norm_num)
        omega
      have hm : n % 10 < 10 := Nat.mod_lt _ (by norm_num)
      rw [natParseAux_append, ih hdiv acc]
      have hone : natParseAux (acc * 10 ^ (natReprAux f (n / 10)).length + n / 10)
          [digitChar (n % 10)] =
          some ((acc * 10 ^ (natReprAux f (n / 10)).length + n / 10) * 10 + n % 10) := by
        simp [natParseAux, digitChar_isDigit hm, digitVal_digitChar hm]
      simp only [Option.some_bind, hone]
      congr 1
      rw [List.length_append, List.length_singleton, pow_succ]
      have h2 := Nat.div_add_mod n 10
      have h3 : acc * (10 ^ (natReprAux f (n / 10)).length * 10) =
          acc * 10 ^ (natReprAux f (n / 10)).length * 10 := by ring
      rw [h3]
      omega

theorem natParse_natRepr (n : Nat) : natParse (natRepr n) = some n := by
  have hne : natRepr n ≠ [] := natRepr_ne_nil n
  have : natParse (natRepr n) = natParseAux 0 (natRepr n) := by
    unfold natParse
    cases h : natRepr n with
    | nil => exact absurd h hne
    | cons a t => rfl
  rw [this]
  unfold natRepr
  rw [natParseAux_natReprAux (Nat.lt_succ_self n) 0]
  simp

theorem natRepr_head_ne_sign {n : Nat} {a : Char} {t : List Char}
    (h : natRepr n = a :: t) : a ≠ '-' ∧ a ≠ '+' := by
  have ha : a.isDigit = true := natRepr_chars a (h ▸ List.mem_cons_self a t)
  constructor <;> (intro hh; rw [hh] at ha; exact absurd ha (by decide))

theorem pyParseInt_of_head_not_sign {a : Char} {t : List Char}
    (h1 : a ≠ '-') (h2 : a ≠ '+') :
    pyParseInt (a :: t) = (natParse (a :: t)).map (fun n => (n : Int)) := by
  unfold pyParseInt
  split
  · rename_i heq
    injection heq with ha _
    exact absurd ha h1
  · rename_i heq
    injection heq with ha _
    exact absurd ha h2
  · rfl

theorem pyParseInt_intRepr (i : Int) : pyParseInt (intRepr i) = some i := by
  unfold intRepr
  split
  · rename_i hneg
    have hstep : pyParseInt ('-' :: natRepr i.natAbs) =
        (natParse (natRepr i.natAbs)).map (fun n => -(n : Int)) := rfl
    rw [hstep, natParse_natRepr]
    have habs : ((i.natAbs : Int)) = -i := by omega
    simp [habs]
  · rename_i hpos
    push_neg at hpos
    cases h : natRepr i.toNat with
    | nil => exact absurd h (natRepr_ne_nil _)
    | cons a t =>
      obtain ⟨h1, h2⟩ := natRepr_head_ne_sign h
      rw [pyParseInt_of_head_not_sign h1 h2, ← h, natParse_natRepr]
      simp [Int.toNat_of_nonneg hpos]

theorem intRepr_chars {i : Int} :
    ∀ c ∈ intRepr i, c.isDigit = true ∨ c = '-' := by
  intro c hc
  unfold intRepr at hc
  split at hc
  · rcases List.mem_cons.mp hc with h | h
    · exact Or.inr h
    · exact Or.inl (natRepr_chars c h)
  · exact Or.inl (natRepr_chars c hc)

/-! ## Fractions (Python `fractions.Fraction`) -/

/-- Model of Python `Fraction(s)` on canonical literals: an optional sign and
digits, optionally followed by `/` and a digit denominator.  `Fraction`
normalizes, which `mkRat` reproduces; a zero denominator raises
(`ZeroDivisionError`), modelled as `none`. -/
def pyFraction (s : List Char) : Option ℚ :=
  match pyPartition '/' s with
  | none => (pyParseInt s).map (fun n => (n : ℚ))
  | some (a, b) =>
    match pyParseInt a, natParse b with
    | some n, some d => if d = 0 then none else some (mkRat n d)
    | _, _ => none

/-- The printed form `numerator/denominator` used by `Event.__repr__`. -/
def fracRepr (q : ℚ) : List Char := intRepr q.num ++ '/' :: natRepr q.den

theorem pyFraction_fracRepr (q : ℚ) : pyFraction (fracRepr q) = some q := by
  have hnum : '/' ∉ intRepr q.num := by
    intro hm
    rcases intRepr_chars _ hm with h | h
    · exact absurd h (by decide)
    · exact absurd h (by decide)
  unfold pyFraction fracRepr
  rw [pyPartition_of_not_mem _ hnum]
  simp only [pyParseInt_intRepr, natParse_natRepr]
  rw [if_neg q.den_nz, Rat.mkRat_self]

/-! ## The `Note` class (`lib/mcmg/note.py`) -/

/-- Shallow embedding of `Note`.  The Python `clef` 2-tuple is flattened into
`clefSign`/`clefLine`; string fields are `List Char`.  The memoized
`repr_str` cache is omitted: it is excluded from `__eq__` and only memoizes
`__repr__`. -/
structure Note where
  clefSign : List Char
  clefLine : Int
  name : List Char
  accidental : List Char
  octave : List Char
  articulations : List (List Char)
deriving DecidableEq

/-- `Note.is_rest` property. -/
def Note.is_rest (n : Note) : Prop := n.name = ['R']

/-- `Note.__repr__`: `({clef[0]},{clef[1]}){name}{accidental}{octave}|` then
the comma-joined articulations when the tuple is non-empty. -/
def Note.repr (n : Note) : List Char :=
  let base := '(' :: n.clefSign ++ ',' :: intRepr n.clefLine ++ ')' ::
    (n.name ++ n.accidental ++ n.octave ++ ['|'])
  if n.articulations = [] then base
  else base ++ List.intercalate [','] n.articulations

/-- The accidental extraction applied to the remainder after the name
character for a pitched note: `startswith("bb")` first, then
`startswith(("x", "#", "b"))` taking the first character, anything else
leaving the accidental empty. -/
def accSplit (rest : List Char) : List Char × List Char :=
  if rest.head? = some 'b' ∧ rest.tail.head? = some 'b' then
    (['b', 'b'], rest.tail.tail)
  else if rest.head? = some 'x' ∨ rest.head? = some '#' ∨ rest.head? = some 'b' then
    (rest.take 1, rest.tail)
  else ([], rest)

/-- `Note.from_string`: parse the clef inside `(...)`, split the pitch part
from the articulations at the first `|`, take the first character as the
name, extract the accidental for pitched notes by longest-prefix match on
`bb`/`x`/`#`/`b`, and split articulations on commas dropping empty tokens.
Raised `ValueError`s are modelled as `none`. -/
def Note.from_string (s : List Char) : Option Note :=
  if s = [] then none
  else
    match pyPartition ')' s with
    | none => none
    | some (clefPart, remainder) =>
      match pySplit ',' (pyLStrip '(' clefPart) with
      | [sign, line] =>
        match pyParseInt line with
        | none => none
        | some clefLine =>
          match pyPartition '|' remainder with
          | none => none
          | some (pitchPart, articPart) =>
            match pitchPart with
            | [] => none
            | nm :: rest =>
              let accOct : List Char × List Char :=
                if nm = 'R' then ([], rest) else accSplit rest
              let arts : List (List Char) :=
                if articPart = [] then []
                else (pySplit ',' articPart).filter (fun a => a ≠ [])
              some ⟨sign, clefLine, [nm], accOct.1, accOct.2, arts⟩
      | _ => none

/-- The legal value space of a `Note` per the spec (§3, §4.1): an alphabetic
clef sign, a single letter name in `A..G` or the rest marker `R`, an
accidental among the five legal forms (empty for rests), a signed digit
octave string, and nonempty alphabetic articulation tokens. -/
def ValidNote (n : Note) : Prop :=
  n.clefSign ≠ [] ∧ (∀ c ∈ n.clefSign, c.isAlpha = true) ∧
  n.name.length = 1 ∧ (∀ c ∈ n.name, c ∈ ['A', 'B', 'C', 'D', 'E', 'F', 'G', 'R']) ∧
  n.accidental ∈ [([] : List Char), ['#'], ['b'], ['x'], ['b', 'b']] ∧
  (n.name = ['R'] → n.accidental = []) ∧
  (∀ c ∈ n.octave, c.isDigit = true ∨ c = '-') ∧
  (∀ a ∈ n.articulations, a ≠ [] ∧ ∀ c ∈ a, c.isAlpha = true)

instance (n : Note) : Decidable (ValidNote n) := by
  unfold ValidNote
  exact inferInstance

/-! ## The `Event` class (`lib/mcmg/event.py`) -/

/-- Shallow embedding of `Event`.  The `timing` tuple is flattened into
`type` (a `Fraction`, modelled as `ℚ`) and `duration` (`str | None`).  The
memoized `repr_str` cache is omitted; `__eq__` compares exactly these three
fields. -/
structure Event where
  notes : List Note
  type : ℚ
  duration : Option (List Char)
deriving DecidableEq

/-- `Event.is_chord` property. -/
def Event.is_chord (e : Event) : Prop := 1 < e.notes.length

/-- The literal string `None`, printed by the f-string for a missing
duration and mapped back to `None` on parsing. -/
def noneStr : List Char := ['N', 'o', 'n', 'e']

/-- The duration part of `Event.__repr__` (`{self.duration}` in the
f-string renders `None` as the string `None`). -/
def durRepr : Option (List Char) → List Char
  | none => noneStr
  | some d => d

/-- `Event.__repr__`: the `>`-joined note strings, `>>`, then
`{type.numerator}/{type.denominator}|{duration}`. -/
def Event.repr (e : Event) : List Char :=
  List.intercalate ['>'] (e.notes.map Note.repr) ++
    '>' :: '>' :: (fracRepr e.type ++ '|' :: durRepr e.duration)

/-- `Event.from_string`: split at the rightmost `>>`, split the notes part
on `>` dropping empty pieces, parse each note, then split the timing part at
the first `|` into fraction and duration. -/
def Event.from_string (s : List Char) : Option Event :=
  match pyRPartGG s with
  | none => none
  | some (notesPart, timingPart) =>
    let noteStrings := (pySplit '>' notesPart).filter (fun n => n ≠ [])
    if noteStrings = [] then none
    else
      match noteStrings.mapM Note.from_string with
      | none => none
      | some notes =>
        match pyPartition '|' timingPart with
        | none => none
        | some (fracPart, durPart) =>
          match pyFraction fracPart with
          | none => none
          | some q =>
            some ⟨notes, q, if durPart = noneStr then none else some durPart⟩

/-- The legal value space of an `Event` per the spec (§3, §4.1): at least
one valid note, a positive rhythmic type, and an optional nonempty digit
tick string as duration. -/
def ValidEvent (e : Event) : Prop :=
  e.notes ≠ [] ∧ (∀ n ∈ e.notes, ValidNote n) ∧ 0 < e.type ∧
  durValid e.duration
where
  /-- Validity of the optional duration field. -/
  durValid : Option (List Char) → Prop
    | none => True
    | some d => d ≠ [] ∧ ∀ c ∈ d, c.isDigit = true

instance : (o : Option (List Char)) → Decidable (ValidEvent.durValid o)
  | none => isTrue trivial
  | some _ => by unfold ValidEvent.durValid; exact inferInstance

instance (e : Event) : Decidable (ValidEvent e) := by
  unfold ValidEvent
  exact inferInstance

/-! ## Character classes of printed notes/events -/

theorem char_ne_of_class {c x : Char} {p : Char → Bool}
    (h : p c = true) (hx : p x = false) : c ≠ x := by
  intro he
  rw [he, hx] at h
  cases h

theorem isWhitespace_cases {c : Char} (h : c.isWhitespace = true) :
    c = ' ' ∨ c = '\t' ∨ c = '\r' ∨ c = '\n' := by
  simp only [Char.isWhitespace, Bool.or_eq_true, decide_eq_true_eq] at h
  tauto

theorem alpha_not_ws {c : Char} (h : c.isAlpha = true) :
    c.isWhitespace = false := by
  by_contra hws
  rcases isWhitespace_cases (by simpa using hws) with rfl | rfl | rfl | rfl <;>
    exact absurd h (by decide)

theorem digit_not_ws {c : Char} (h : c.isDigit = true) :
    c.isWhitespace = false := by
  by_contra hws
  rcases isWhitespace_cases (by simpa using hws) with rfl | rfl | rfl | rfl <;>
    exact absurd h (by decide)

/-- Characters that may appear in a printed `Note`: anything except the
event-level separators `>`, `&`, `+` and whitespace. -/
def NoteChar (c : Char) : Prop :=
  c ≠ '>' ∧ c ≠ '&' ∧ c ≠ '+' ∧ c.isWhitespace = false

theorem noteChar_of_alpha {c : Char} (h : c.isAlpha = true) : NoteChar c :=
  ⟨char_ne_of_class h (by decide), char_ne_of_class h (by decide),
    char_ne_of_class h (by decide), alpha_not_ws h⟩

theorem noteChar_of_digit {c : Char} (h : c.isDigit = true) : NoteChar c :=
  ⟨char_ne_of_class h (by decide), char_ne_of_class h (by decide),
    char_ne_of_class h (by decide), digit_not_ws h⟩

theorem noteChar_of_digit_or_dash {c : Char}
    (h : c.isDigit = true ∨ c = '-') : NoteChar c := by
  rcases h with h | rfl
  · exact noteChar_of_digit h
  · exact ⟨by decide, by decide, by decide, by decide⟩

theorem intercalate_cons_cons (c : Char) (a b : List Char)
    (u : List (List Char)) :
    List.intercalate [c] (a :: b :: u) = a ++ c :: List.intercalate [c] (b :: u) := by
  simp [List.intercalate, List.intersperse]

theorem mem_intercalate_single {c s : Char} {ls : List (List Char)}
    (h : c ∈ List.intercalate [s] ls) : c = s ∨ ∃ l ∈ ls, c ∈ l := by
  induction ls with
  | nil => simp [List.intercalate] at h
  | cons a t ih =>
    cases t with
    | nil =>
      simp only [List.intercalate, List.intersperse] at h
      exact Or.inr ⟨a, List.mem_cons_self a [], by simpa using h⟩
    | cons b u =>
      rw [intercalate_cons_cons] at h
      rcases List.mem_append.mp h with h1 | h2
      · exact Or.inr ⟨a, List.mem_cons_self _ _, h1⟩
      · rcases List.mem_cons.mp h2 with rfl | h3
        · exact Or.inl rfl
        · rcases ih h3 with h4 | ⟨l, hl, hcl⟩
          · exact Or.inl h4
          · exact Or.inr ⟨l, List.mem_cons_of_mem a hl, hcl⟩

theorem validNote_name_chars {n : Note} (h : ValidNote n) :
    ∀ c ∈ n.name, NoteChar c ∧ c ≠ '|' ∧ c ≠ ')' ∧ c ≠ ',' := by
  intro c hc
  have := h.2.2.2.1 c hc
  fin_cases this <;> exact ⟨⟨by decide, by decide, by decide, by decide⟩,
    by decide, by decide, by decide⟩

theorem validNote_acc_chars {n : Note} (h : ValidNote n) :
    ∀ c ∈ n.accidental, NoteChar c ∧ c ≠ '|' ∧ c ≠ ')' ∧ c ≠ ',' := by
  intro c hc
  have hmem := h.2.2.2.2.1
  simp only [List.mem_cons, List.not_mem_nil, or_false] at hmem
  have hcc : c = '#' ∨ c = 'b' ∨ c = 'x' := by
    rcases hmem with ha | ha | ha | ha | ha <;> rw [ha] at hc <;> simp at hc <;> tauto
  rcases hcc with rfl | rfl | rfl <;>
    exact ⟨⟨by decide, by decide, by decide, by decide⟩,
      by decide, by decide, by decide⟩

theorem validNote_oct_chars {n : Note} (h : ValidNote n) :
    ∀ c ∈ n.octave, NoteChar c ∧ c ≠ '|' ∧ c ≠ ')' ∧ c ≠ ',' := by
  intro c hc
  rcases h.2.2.2.2.2.2.1 c hc with hd | rfl
  · exact ⟨noteChar_of_digit hd, char_ne_of_class hd (by decide),
      char_ne_of_class hd (by decide), char_ne_of_class hd (by decide)⟩
  · exact ⟨⟨by decide, by decide, by decide, by decide⟩, by decide, by decide, by decide⟩

theorem intRepr_noteChar {i : Int} :
    ∀ c ∈ intRepr i, NoteChar c ∧ c ≠ '|' ∧ c ≠ ')' ∧ c ≠ ',' ∧ c ≠ '/' := by
  intro c hc
  rcases intRepr_chars c hc with hd | rfl
  · exact ⟨noteChar_of_digit hd, char_ne_of_class hd (by decide),
      char_ne_of_class hd (by decide), char_ne_of_class hd (by decide),
      char_ne_of_class hd (by decide)⟩
  · exact ⟨⟨by decide, by decide, by decide, by decide⟩,
      by decide, by decide, by decide, by decide⟩

theorem accSplit_valid {acc oct : List Char}
    (hacc : acc ∈ [([] : List Char), ['#'], ['b'], ['x'], ['b', 'b']])
    (hoct : ∀ c ∈ oct, c.isDigit = true ∨ c = '-') :
    accSplit (acc ++ oct) = (acc, oct) := by
  have hhead : ∀ o ot, oct = o :: ot → o ≠ 'b' ∧ o ≠ 'x' ∧ o ≠ '#' := by
    intro o ot he
    have hm : o ∈ oct := he ▸ List.mem_cons_self o ot
    rcases hoct o hm with hd | rfl
    · exact ⟨char_ne_of_class hd (by decide), char_ne_of_class hd (by decide),
        char_ne_of_class hd (by decide)⟩
    · exact ⟨by decide, by decide, by decide⟩
  simp only [List.mem_cons, List.not_mem_nil, or_false] at hacc
  rcases hacc with rfl | rfl | rfl | rfl | rfl
  · -- empty accidental
    cases oct with
    | nil => rfl
    | cons o ot =>
      obtain ⟨hb, hx, hh⟩ := hhead o ot rfl
      have c1 : ¬((([] : List Char) ++ o :: ot).head? = some 'b' ∧
          (([] : List Char) ++ o :: ot).tail.head? = some 'b') := by
        rintro ⟨h1, -⟩
        simp only [List.nil_append, List.head?_cons, Option.some.injEq] at h1
        exact hb h1
      have c2 : ¬((([] : List Char) ++ o :: ot).head? = some 'x' ∨
          (([] : List Char) ++ o :: ot).head? = some '#' ∨
          (([] : List Char) ++ o :: ot).head? = some 'b') := by
        rintro (h1 | h1 | h1) <;>
          simp only [List.nil_append, List.head?_cons, Option.some.injEq] at h1
        · exact hx h1
        · exact hh h1
        · exact hb h1
      unfold accSplit
      rw [if_neg c1, if_neg c2]
      simp
  · -- sharp
    unfold accSplit
    rw [if_neg, if_pos]
    · simp
    · exact Or.inr (Or.inl (by simp))
    · rintro ⟨h1, -⟩
      simp only [List.cons_append, List.head?_cons, Option.some.injEq] at h1
      exact absurd h1 (by decide)
  · -- single flat: the octave must not begin with a second `b`
    unfold accSplit
    rw [if_neg, if_pos]
    · simp
    · exact Or.inr (Or.inr (by simp))
    · rintro ⟨-, h2⟩
      simp only [List.cons_append, List.nil_append, List.tail_cons] at h2
      cases oct with
      | nil => simp at h2
      | cons o ot =>
        obtain ⟨hb, -, -⟩ := hhead o ot rfl
        simp only [List.head?_cons, Option.some.injEq] at h2
        exact hb h2
  · -- double sharp x
    unfold accSplit
    rw [if_neg, if_pos]
    · simp
    · exact Or.inl (by simp)
    · rintro ⟨h1, -⟩
      simp only [List.cons_append, List.head?_cons, Option.some.injEq] at h1
      exact absurd h1 (by decide)
  · -- double flat
    unfold accSplit
    rw [if_pos]
    · simp
    · constructor <;> simp

theorem Note.repr_eq (n : Note) :
    Note.repr n = ('(' :: (n.clefSign ++ ',' :: intRepr n.clefLine)) ++ ')' ::
      (n.name ++ n.accidental ++ n.octave ++ '|' ::
        (if n.articulations = [] then [] else List.intercalate [','] n.articulations)) := by
  unfold Note.repr
  split <;> simp [List.append_assoc]

theorem note_round_trip {n : Note} (h : ValidNote n) :
    Note.from_string (Note.repr n) = some n := by
  obtain ⟨h1, h2, h3, h4, h5, h6, h7, h8⟩ := h
  obtain ⟨nm, hnm⟩ : ∃ c, n.name = [c] := by
    cases hname : n.name with
    | nil => rw [hname] at h3; simp at h3
    | cons a t =>
      cases t with
      | nil => exact ⟨a, rfl⟩
      | cons b u => rw [hname] at h3; simp at h3
  have hnmem : nm ∈ ['A', 'B', 'C', 'D', 'E', 'F', 'G', 'R'] :=
    h4 nm (hnm ▸ List.mem_cons_self nm [])
  -- the three pieces of the printed string
  set pre : List Char := n.clefSign ++ ',' :: intRepr n.clefLine with hpre
  set artStr : List Char :=
    (if n.articulations = [] then [] else List.intercalate [','] n.articulations)
    with hart
  set post : List Char := n.name ++ n.accidental ++ n.octave ++ '|' :: artStr
    with hpost
  have hrepr : Note.repr n = ('(' :: pre) ++ ')' :: post := Note.repr_eq n
  -- the `)` partition
  have hartChars : ∀ c ∈ artStr, c.isAlpha = true ∨ c = ',' := by
    intro c hc
    rw [hart] at hc
    split at hc
    · simp at hc
    · rcases mem_intercalate_single hc with rfl | ⟨l, hl, hcl⟩
      · exact Or.inr rfl
      · exact Or.inl ((h8 l hl).2 c hcl)
  have hpre_not : ')' ∉ ('(' :: pre) := by
    intro hm
    rcases List.mem_cons.mp hm with he | hm2
    · exact absurd he (by decide)
    · rw [hpre] at hm2
      rcases List.mem_append.mp hm2 with hs | hr
      · exact absurd (h2 _ hs) (by decide)
      · rcases List.mem_cons.mp hr with he2 | hi
        · exact absurd he2 (by decide)
        · exact absurd rfl (intRepr_noteChar _ hi).2.2.1
  -- the clef content after `lstrip('(')` splits into sign and line
  have hlstrip : pyLStrip '(' ('(' :: pre) = pre := by
    have : pyLStrip '(' ('(' :: pre) = pyLStrip '(' pre := by simp [pyLStrip]
    rw [this, hpre]
    cases hsign : n.clefSign with
    | nil => exact absurd hsign h1
    | cons c0 s0 =>
      have hc0 : c0.isAlpha = true := h2 c0 (hsign ▸ List.mem_cons_self c0 s0)
      rw [List.cons_append]
      exact pyLStrip_of_head_ne (char_ne_of_class hc0 (by decide))
  have hsplitClef : pySplit ',' pre = [n.clefSign, intRepr n.clefLine] := by
    rw [hpre, pySplit_append _ (fun hm => absurd (h2 _ hm) (by decide)),
      pySplit_of_not_mem (fun hm => absurd rfl (intRepr_noteChar _ hm).2.2.2.1)]
  -- the `|` partition of the remainder
  have hpitch_not : '|' ∉ n.name ++ n.accidental ++ n.octave := by
    intro hm
    rcases List.mem_append.mp hm with hm2 | hoc
    · rcases List.mem_append.mp hm2 with hna | hac
      · exact absurd rfl (validNote_name_chars
          ⟨h1, h2, h3, h4, h5, h6, h7, h8⟩ _ hna).2.1
      · exact absurd rfl (validNote_acc_chars
          ⟨h1, h2, h3, h4, h5, h6, h7, h8⟩ _ hac).2.1
    · exact absurd rfl (validNote_oct_chars
        ⟨h1, h2, h3, h4, h5, h6, h7, h8⟩ _ hoc).2.1
  have hpart2 : pyPartition '|' post = some (n.name ++ n.accidental ++ n.octave, artStr) := by
    rw [hpost]
    have hshape : n.name ++ n.accidental ++ n.octave ++ '|' :: artStr =
        (n.name ++ n.accidental ++ n.octave) ++ '|' :: artStr := by
      simp [List.append_assoc]
    rw [hshape, pyPartition_of_not_mem _ hpitch_not]
  -- the pitch part: name, accidental, octave
  have hpitch_shape : n.name ++ n.accidental ++ n.octave =
      nm :: (n.accidental ++ n.octave) := by
    rw [hnm]
    simp
  -- the accidental and octave recovery
  have haccoct : (if nm = 'R' then (([] : List Char), n.accidental ++ n.octave)
      else accSplit (n.accidental ++ n.octave)) = (n.accidental, n.octave) := by
    by_cases hR : nm = 'R'
    · have hacc0 : n.accidental = [] := h6 (by rw [hnm, hR])
      rw [if_pos hR, hacc0]
      simp
    · rw [if_neg hR]
      exact accSplit_valid h5 h7
  -- the articulations recovery
  have hartsOut : (if artStr = [] then []
      else (pySplit ',' artStr).filter (fun a => a ≠ [])) = n.articulations := by
    by_cases hA : n.articulations = []
    · rw [hart]
      simp [hA]
    · have hne : artStr ≠ [] := by
        rw [hart, if_neg hA]
        cases harr : n.articulations with
        | nil => exact absurd harr hA
        | cons a0 r =>
          have ha0 : a0 ≠ [] := (h8 a0 (harr ▸ List.mem_cons_self a0 r)).1
          cases r with
          | nil =>
            simpa [List.intercalate, List.intersperse] using ha0
          | cons b0 u0 =>
            rw [intercalate_cons_cons]
            cases hax : a0 with
            | nil => exact absurd hax ha0
            | cons x xs => simp
      rw [if_neg hne, hart, if_neg hA,
        pySplit_intercalate hA (fun l hl hc =>
          absurd ((h8 l hl).2 ',' hc) (by decide))]
      rw [List.filter_eq_self.mpr]
      intro a ha
      simpa using (h8 a ha).1
  -- assemble
  rw [hrepr]
  unfold Note.from_string
  rw [if_neg (by simp)]
  rw [pyPartition_of_not_mem post hpre_not]
  simp only [hlstrip, hsplitClef, pyParseInt_intRepr, hpart2, hpitch_shape]
  simp only [hnm, haccoct, hartsOut]
  rw [← hnm]

theorem hasGG_cons_of_not_mem {B : List Char} (a : Char) (h : '>' ∉ B) :
    hasGG (a :: B) = false := by
  cases B with
  | nil => rfl
  | cons b u =>
    have hb : b ≠ '>' := fun hh => h (hh ▸ List.mem_cons_self b u)
    rw [show hasGG (a :: b :: u) = ((a == '>' && b == '>') || hasGG (b :: u)) from rfl,
      hasGG_eq_false_of_not_mem h]
    simp [hb]

theorem note_repr_ne_nil (n : Note) : Note.repr n ≠ [] := by
  rw [Note.repr_eq]
  simp

theorem validNote_repr_chars {n : Note} (h : ValidNote n) :
    ∀ c ∈ Note.repr n, NoteChar c := by
  have hv := h
  obtain ⟨h1, h2, h3, h4, h5, h6, h7, h8⟩ := h
  intro c hc
  rw [Note.repr_eq] at hc
  rcases List.mem_append.mp hc with hl | hr
  · rcases List.mem_cons.mp hl with rfl | hl2
    · exact ⟨by decide, by decide, by decide, by decide⟩
    · rcases List.mem_append.mp hl2 with hs | hir
      · exact noteChar_of_alpha (h2 c hs)
      · rcases List.mem_cons.mp hir with rfl | hi
        · exact ⟨by decide, by decide, by decide, by decide⟩
        · exact (intRepr_noteChar c hi).1
  · rcases List.mem_cons.mp hr with rfl | hr2
    · exact ⟨by decide, by decide, by decide, by decide⟩
    · rcases List.mem_append.mp hr2 with hno | hba
      · rcases List.mem_append.mp hno with hnn | hao
        · rcases List.mem_append.mp hnn with hna | hac
          · exact (validNote_name_chars hv c hna).1
          · exact (validNote_acc_chars hv c hac).1
        · exact (validNote_oct_chars hv c hao).1
      · rcases List.mem_cons.mp hba with rfl | hart
        · exact ⟨by decide, by decide, by decide, by decide⟩
        · split at hart
          · simp at hart
          · rcases mem_intercalate_single hart with rfl | ⟨l, hl, hcl⟩
            · exact ⟨by decide, by decide, by decide, by decide⟩
            · exact noteChar_of_alpha ((h8 l hl).2 c hcl)

theorem mapM_from_string {notes : List Note} (h : ∀ n ∈ notes, ValidNote n) :
    (notes.map Note.repr).mapM Note.from_string = some notes := by
  induction notes with
  | nil => rfl
  | cons a t ih =>
    rw [List.map_cons, List.mapM_cons,
      note_round_trip (h a (List.mem_cons_self a t)),
      ih (fun n hn => h n (List.mem_cons_of_mem a hn))]
    rfl

theorem durRepr_chars {d : Option (List Char)} (h : ValidEvent.durValid d) :
    ∀ c ∈ durRepr d, c = 'N' ∨ c = 'o' ∨ c = 'n' ∨ c = 'e' ∨ c.isDigit = true := by
  intro c hc
  cases d with
  | none =>
    simp only [durRepr, noneStr, List.mem_cons, List.not_mem_nil, or_false] at hc
    tauto
  | some dd => exact Or.inr (Or.inr (Or.inr (Or.inr (h.2 c hc))))

theorem fracRepr_chars (q : ℚ) :
    ∀ c ∈ fracRepr q, (c.isDigit = true ∨ c = '-' ∨ c = '/') := by
  intro c hc
  unfold fracRepr at hc
  rcases List.mem_append.mp hc with hi | hn
  · rcases intRepr_chars c hi with hd | rfl
    · exact Or.inl hd
    · exact Or.inr (Or.inl rfl)
  · rcases List.mem_cons.mp hn with rfl | hn2
    · exact Or.inr (Or.inr rfl)
    · exact Or.inl (natRepr_chars c hn2)

theorem some_ne_noneStr {d : List Char} (h : d ≠ [] ∧ ∀ c ∈ d, c.isDigit = true) :
    d ≠ noneStr := by
  intro he
  have : 'N' ∈ d := he ▸ List.mem_cons_self _ _
  exact absurd (h.2 'N' this) (by decide)

theorem event_round_trip {e : Event} (h : ValidEvent e) :
    Event.from_string (Event.repr e) = some e := by
  obtain ⟨h1, h2, h3, h4⟩ := h
  set timing : List Char := fracRepr e.type ++ '|' :: durRepr e.duration with htm
  have hGG : hasGG ('>' :: timing) = false := by
    apply hasGG_cons_of_not_mem
    intro hm
    rw [htm] at hm
    rcases List.mem_append.mp hm with hf | hd
    · rcases fracRepr_chars e.type '>' hf with h' | h' | h' <;> exact absurd h' (by decide)
    · rcases List.mem_cons.mp hd with he | hd2
      · exact absurd he (by decide)
      · rcases durRepr_chars h4 '>' hd2 with h' | h' | h' | h' | h' <;>
          exact absurd h' (by decide)
  have hrp : pyRPartGG (Event.repr e) =
      some (List.intercalate ['>'] (e.notes.map Note.repr), timing) := by
    unfold Event.repr
    exact pyRPartGG_append _ hGG
  have hmapne : e.notes.map Note.repr ≠ [] := by
    intro hm
    exact h1 (List.map_eq_nil_iff.mp hm)
  have hsplitNotes : pySplit '>' (List.intercalate ['>'] (e.notes.map Note.repr)) =
      e.notes.map Note.repr := by
    apply pySplit_intercalate hmapne
    intro l hl hin
    obtain ⟨nn, hnn, rfl⟩ := List.mem_map.mp hl
    exact absurd rfl (validNote_repr_chars (h2 nn hnn) '>' hin).1
  have hfilter : (e.notes.map Note.repr).filter (fun x => x ≠ []) = e.notes.map Note.repr := by
    rw [List.filter_eq_self]
    intro a ha
    obtain ⟨nn, hnn, rfl⟩ := List.mem_map.mp ha
    simpa using note_repr_ne_nil nn
  have hpartBar : pyPartition '|' timing = some (fracRepr e.type, durRepr e.duration) := by
    rw [htm]
    apply pyPartition_of_not_mem
    intro hm
    rcases fracRepr_chars e.type '|' hm with h' | h' | h' <;> exact absurd h' (by decide)
  have hdur : (if durRepr e.duration = noneStr then none else some (durRepr e.duration)) =
      e.duration := by
    cases hd : e.duration with
    | none => simp [durRepr]
    | some dd =>
      rw [hd] at h4
      have : durRepr (some dd) = dd := rfl
      rw [this, if_neg (some_ne_noneStr h4)]
  unfold Event.from_string
  rw [hrp]
  simp only [hsplitNotes, hfilter, if_neg hmapne, mapM_from_string h2, hpartBar,
    pyFraction_fracRepr, hdur]

/-! ## The transition table and `Instrument.build_tm`
(`lib/mcmg/instrument.py`) -/

/-- The parts of the pandas `DataFrame` that `build_tm`/`compose` use:
ordered row labels, ordered column labels, and the probability entries.
`rows`/`cols` come from Python sets, whose iteration order is unspecified;
here the first-traversal order (deduplicated) is fixed as a
determinization — every claim below only depends on the label multisets. -/
structure TMdata where
  rows : List (List Char)
  cols : List (List Char)
  entry : List Char → List Char → ℚ

/-- Placeholder used to make positional indexing total; never reached under
the `order < min_voice_length` precondition. -/
def defaultEvent : Event := ⟨[⟨[], 0, [], [], [], []⟩], 1, none⟩

/-- `min(len(events) for events in voices_dict.values())` (0 when there are
no voices, a case `build_tm` rejects earlier). -/
def minLen (V : List (List Event)) : Nat :=
  match V.map List.length with
  | [] => 0
  | l :: ls => ls.foldl min l

/-- The `&`-joined per-voice event strings at time `i % m`
(`"&".join(str(voices_dict[voice][(i) % min_voice_length]) ...)`). -/
def groupStr (V : List (List Event)) (m i : Nat) : List Char :=
  List.intercalate ['&'] (V.map (fun v => Event.repr (v.getD (i % m) defaultEvent)))

/-- The `+`-joined window of `order` consecutive groups starting at `i`
(the `current_ev`/`src` string of `build_tm`). -/
def stateStr (V : List (List Event)) (m order i : Nat) : List Char :=
  List.intercalate ['+'] ((List.range order).map (fun j => groupStr V m (i + j)))

/-- The successor group string (`next_ev`/`dest` of `build_tm`). -/
def destStr (V : List (List Event)) (m order i : Nat) : List Char :=
  groupStr V m (i + order)

/-- `list(unique_ev_n_order_str)`: the distinct window strings. -/
def rowsList (V : List (List Event)) (order : Nat) : List (List Char) :=
  ((List.range (minLen V)).map (stateStr V (minLen V) order)).dedup

/-- `list(unique_ev_str)`: the distinct successor strings. -/
def colsList (V : List (List Event)) (order : Nat) : List (List Char) :=
  ((List.range (minLen V)).map (destStr V (minLen V) order)).dedup

/-- The raw transition counts accumulated by `tm.loc[src, dest] += 1` over
`i in range(min_voice_length)`. -/
def rawCount (V : List (List Event)) (order : Nat) (r c : List Char) : ℚ :=
  (((List.range (minLen V)).filter
    (fun i => stateStr V (minLen V) order i = r ∧
      destStr V (minLen V) order i = c)).length : ℚ)

/-- The `tm.loc[zero_rows, :] = 1.0` fallback: an all-ones row when the raw
row sum is zero, the raw counts otherwise. -/
def fallbackW (count : List Char → List Char → ℚ) (cols : List (List Char))
    (r c : List Char) : ℚ :=
  if (cols.map (count r)).sum = 0 then 1 else count r c

/-- The row normalization `tm.div(transition_sums, axis=0)` applied after
the fallback. -/
def normEntry (count : List Char → List Char → ℚ) (cols : List (List Char))
    (r c : List Char) : ℚ :=
  fallbackW count cols r c / (cols.map (fallbackW count cols r)).sum

/-- The table produced by `build_tm` once its precondition checks have
passed. -/
def buildTable (V : List (List Event)) (order : Nat) : TMdata :=
  ⟨rowsList V order, colsList V order, normEntry (rawCount V order) (colsList V order)⟩

/-- The state of an `Instrument` that `build_tm`/`compose` read and write:
the aggregated per-voice event streams (`voices_dict[voice]` for each
selected voice, in `self.voices` order), the configured chain order, and
the stored table (`pd.DataFrame()`, i.e. `none`, until built). -/
structure Instrument where
  voicesData : List (List Event)
  mc_order : Nat
  tm : Option TMdata

/-- Error message for an empty voice selection (apostrophe elided). -/
def emptyVoicesMsg : List Char :=
  String.toList "This instance voice must be a list of at least one valid element, but it is empty"

/-- Error message for an empty aggregation result (dead code: the voices
dict has the selected voices as keys, so it is falsy only when the selection
is empty, which the previous check already rejected). -/
def noVoicesMsg : List Char :=
  String.toList "No voices found to build transition matrix"

/-- `f"Order ({order}) must be less than the minimum voice length
({min_voice_length})"`. -/
def orderErrMsg (order m : Nat) : List Char :=
  String.toList "Order (" ++ natRepr order ++
    String.toList ") must be less than the minimum voice length (" ++
    natRepr m ++ [')']

/-- `f"No unique events found. ..."` (dead code under `order <
min_voice_length`, since the traversal is nonempty). -/
def noUniqueMsg (order m : Nat) : List Char :=
  String.toList "No unique events found. May be related to the choice of the order (" ++
    natRepr order ++
    String.toList "), which must be less than the minimum voice length (" ++
    natRepr m ++ [')']

/-- `Instrument.build_tm` without the `save_path`/`load_path` file I/O: the
precondition checks in source order, then the table construction and the
`self.tm` assignment.  A raised `ValueError` leaves the instrument (in
particular its stored `tm`) unchanged, which the returned pair makes
explicit. -/
def Instrument.build_tm (inst : Instrument) (order : Nat := 1) :
    Except (List Char) TMdata × Instrument :=
  if inst.voicesData.length = 0 then (.error emptyVoicesMsg, inst)
  else if inst.voicesData = [] then (.error noVoicesMsg, inst)
  else if minLen inst.voicesData ≤ order then
    (.error (orderErrMsg order (minLen inst.voicesData)), inst)
  else if (colsList inst.voicesData order).length = 0 then
    (.error (noUniqueMsg order (minLen inst.voicesData)), inst)
  else (.ok (buildTable inst.voicesData order),
    { inst with tm := some (buildTable inst.voicesData order) })

/-! ## Row-stochasticity of built tables -/

theorem sum_map_div_self {f : List Char → ℚ} {cols : List (List Char)}
    (hS : (cols.map f).sum ≠ 0) :
    (cols.map (fun c => f c / (cols.map f).sum)).sum = 1 := by
  have hmul : (cols.map (fun c => f c / (cols.map f).sum)).sum =
      (cols.map f).sum * ((cols.map f).sum)⁻¹ := by
    simp only [div_eq_mul_inv]
    rw [← List.sum_map_mul_right]
  rw [hmul, mul_inv_cancel₀ hS]

theorem rawCount_nonneg (V : List (List Event)) (order : Nat) (r c : List Char) :
    0 ≤ rawCount V order r c := by
  unfold rawCount
  positivity

theorem fallback_sum_pos {count : List Char → List Char → ℚ}
    {cols : List (List Char)} (r : List Char)
    (hnn : ∀ c ∈ cols, 0 ≤ count r c) (hcols : cols ≠ []) :
    0 < (cols.map (fallbackW count cols r)).sum := by
  by_cases hz : (cols.map (count r)).sum = 0
  · have hone : cols.map (fallbackW count cols r) = cols.map (fun _ => (1 : ℚ)) := by
      apply List.map_congr_left
      intro c _
      unfold fallbackW
      rw [if_pos hz]
    rw [hone, List.map_const']
    rw [List.sum_replicate, nsmul_eq_mul, mul_one]
    have : cols.length ≠ 0 := fun hh => hcols (List.length_eq_zero.mp hh)
    positivity
  · have hco : cols.map (fallbackW count cols r) = cols.map (count r) := by
      apply List.map_congr_left
      intro c _
      unfold fallbackW
      rw [if_neg hz]
    rw [hco]
    rcases lt_or_eq_of_le (List.sum_nonneg (by
      intro x hx
      obtain ⟨c, hc, rfl⟩ := List.mem_map.mp hx
      exact hnn c hc)) with hlt | heq
    · exact hlt
    · exact absurd heq.symm hz

theorem normEntry_row_sum {count : List Char → List Char → ℚ}
    {cols : List (List Char)} (r : List Char)
    (hnn : ∀ c ∈ cols, 0 ≤ count r c) (hcols : cols ≠ []) :
    (cols.map (normEntry count cols r)).sum = 1 := by
  have hS := (fallback_sum_pos r hnn hcols).ne'
  unfold normEntry
  exact sum_map_div_self hS

theorem mem_rowsList_iff {V : List (List Event)} {order : Nat} {x : List Char} :
    x ∈ rowsList V order ↔
      ∃ i, i < minLen V ∧ stateStr V (minLen V) order i = x := by
  unfold rowsList
  rw [List.mem_dedup, List.mem_map]
  constructor
  · rintro ⟨i, hi, rfl⟩
    exact ⟨i, List.mem_range.mp hi, rfl⟩
  · rintro ⟨i, hi, rfl⟩
    exact ⟨i, List.mem_range.mpr hi, rfl⟩

theorem mem_colsList_iff {V : List (List Event)} {order : Nat} {x : List Char} :
    x ∈ colsList V order ↔
      ∃ i, i < minLen V ∧ destStr V (minLen V) order i = x := by
  unfold colsList
  rw [List.mem_dedup, List.mem_map]
  constructor
  · rintro ⟨i, hi, rfl⟩
    exact ⟨i, List.mem_range.mp hi, rfl⟩
  · rintro ⟨i, hi, rfl⟩
    exact ⟨i, List.mem_range.mpr hi, rfl⟩

theorem colsList_ne_nil {V : List (List Event)} {order : Nat}
    (h : 0 < minLen V) : colsList V order ≠ [] := by
  intro he
  have : destStr V (minLen V) order 0 ∈ colsList V order :=
    mem_colsList_iff.mpr ⟨0, h, rfl⟩
  rw [he] at this
  exact List.not_mem_nil _ this

theorem rawCount_pos_of_witness {V : List (List Event)} {order i : Nat}
    (hi : i < minLen V) :
    1 ≤ rawCount V order (stateStr V (minLen V) order i)
      (destStr V (minLen V) order i) := by
  unfold rawCount
  have hmem : i ∈ (List.range (minLen V)).filter
      (fun j => stateStr V (minLen V) order j = stateStr V (minLen V) order i ∧
        destStr V (minLen V) order j = destStr V (minLen V) order i) := by
    rw [List.mem_filter]
    exact ⟨List.mem_range.mpr hi, by simp⟩
  have hlen : 0 < ((List.range (minLen V)).filter
      (fun j => stateStr V (minLen V) order j = stateStr V (minLen V) order i ∧
        destStr V (minLen V) order j = destStr V (minLen V) order i)).length :=
    List.length_pos.mpr (fun he => List.not_mem_nil i (he ▸ hmem))
  exact_mod_cast hlen

theorem rowRaw_pos_of_mem {V : List (List Event)} {order : Nat} {x : List Char}
    (hx : x ∈ rowsList V order) :
    0 < ((colsList V order).map (rawCount V order x)).sum := by
  obtain ⟨i, hi, rfl⟩ := mem_rowsList_iff.mp hx
  have hc : destStr V (minLen V) order i ∈ colsList V order :=
    mem_colsList_iff.mpr ⟨i, hi, rfl⟩
  have hone := @rawCount_pos_of_witness V order i hi
  have hle : rawCount V order (stateStr V (minLen V) order i)
      (destStr V (minLen V) order i) ≤
      ((colsList V order).map (rawCount V order (stateStr V (minLen V) order i))).sum := by
    apply List.single_le_sum
    · intro q hq
      obtain ⟨c, _, rfl⟩ := List.mem_map.mp hq
      exact rawCount_nonneg V order _ c
    · exact List.mem_map.mpr ⟨_, hc, rfl⟩
  linarith

theorem buildTable_row_sum {V : List (List Event)} {order : Nat}
    (hm : 0 < minLen V) (r : List Char) :
    (((buildTable V order).cols).map ((buildTable V order).entry r)).sum = 1 := by
  exact normEntry_row_sum r (fun c _ => rawCount_nonneg V order r c)
    (colsList_ne_nil hm)

theorem normEntry_zero_row {count : List Char → List Char → ℚ}
    {cols : List (List Char)} (r : List Char)
    (hz : (cols.map (count r)).sum = 0) (hcols : cols ≠ []) :
    ∀ c ∈ cols, normEntry count cols r c = ((cols.length : ℚ))⁻¹ ∧
      0 < normEntry count cols r c := by
  intro c _
  have hlen : (0 : ℚ) < (cols.length : ℚ) := by
    have : cols.length ≠ 0 := fun hh => hcols (List.length_eq_zero.mp hh)
    positivity
  have hrepl : cols.map (fallbackW count cols r) = cols.map (fun _ => (1 : ℚ)) := by
    apply List.map_congr_left
    intro c' _
    unfold fallbackW
    rw [if_pos hz]
  have hsum : (cols.map (fallbackW count cols r)).sum = (cols.length : ℚ) := by
    rw [hrepl, List.map_const', List.sum_replicate, nsmul_eq_mul, mul_one]
  have hentry : normEntry count cols r c = ((cols.length : ℚ))⁻¹ := by
    unfold normEntry
    rw [hsum]
    unfold fallbackW
    rw [if_pos hz, one_div]
  exact ⟨hentry, by rw [hentry]; positivity⟩

/-! ## `Instrument.compose` (`lib/mcmg/instrument.py`) -/

/-- `note_mapping[row]`: the columns with strictly positive probability in
that row, in stable column order (`nonzero_mask.columns[nonzero_mask.loc[row]]`). -/
def rowSuccessors (t : TMdata) (r : List Char) : List (List Char) :=
  t.cols.filter (fun c => 0 < t.entry r c)

/-- The inner sampling loop of `compose`: walk the successor probabilities
accumulating `sum_probas`; on the first index where `rand_u < sum_probas`,
return that index. -/
def scanSelect (probs : List ℚ) (u acc : ℚ) (i : Nat) : Option Nat :=
  match probs with
  | [] => none
  | p :: rest => if u < acc + p then some i else scanSelect rest u (acc + p) (i + 1)

/-- The index the source then uses: `i -= 1` before `successors[i]`, so the
position actually read is one less than the first index whose cumulative sum
exceeds the draw (becoming `-1`, i.e. the last element, when that first
index is `0`). -/
def chosenIndex (probs : List ℚ) (u : ℚ) : Option Int :=
  (scanSelect probs u 0 0).map (fun i => (i : Int) - 1)

/-- The successor string selected by the loop body
(`next_event_str = successors[i]` after the decrement, with Python
negative-index wraparound). -/
def selectSuccessor (succs : List (List Char)) (probs : List ℚ) (u : ℚ) :
    Option (List Char) :=
  (chosenIndex probs u).bind (fun i => pyIndex succs i)

/-- The sliding-state update: `current_str[(first_p_idx + 1):] + '+' +
next_event_str` when `current_str` contains `+`, else `next_event_str`. -/
def slideState (current next : List Char) : List Char :=
  match pyPartition '+' current with
  | none => next
  | some (_, rest) => rest ++ '+' :: next

/-- Decode a list of event strings with `Event.from_string`, any raised
`ValueError` aborting (`none`). -/
def decodeGroup (strs : List (List Char)) : Option (List Event) :=
  strs.mapM Event.from_string

/-- One iteration of `for _ in range(n_simulations)`: look up the current
row in `note_mapping` (a missing key raises, modelled `none`); an empty
successor list repeats the previous output; otherwise sample.  When the walk
never exceeds the draw nothing is appended; when it does, the selected
string is split on `&`, stripped, decoded, appended, and the state slides. -/
def composeStep (t : TMdata) (current : List Char) (lastGroup : List Event)
    (u : ℚ) : Option (List (List Event) × List Char) :=
  if current ∈ t.rows then
    if rowSuccessors t current = [] then some ([lastGroup], current)
    else
      match selectSuccessor (rowSuccessors t current)
          ((rowSuccessors t current).map (t.entry current)) u with
      | none => some ([], current)
      | some c =>
        match decodeGroup ((pySplit '&' c).map pyStrip) with
        | none => none
        | some g => some ([g], slideState current c)
  else none

/-- The simulation loop, consuming one `random.random()` draw per
iteration; `comp[-1]` on an empty list would raise (`none`, unreachable). -/
def composeIter (t : TMdata) (us : Nat → ℚ) :
    Nat → Nat → List Char → List (List Event) → Option (List (List Event))
  | 0, _, _, comp => some comp
  | k + 1, step, current, comp =>
    match comp.getLast? with
    | none => none
    | some lastG =>
      match composeStep t current lastG (us step) with
      | none => none
      | some (app, cur2) => composeIter t us k (step + 1) cur2 (comp ++ app)

/-- `Instrument.compose` with `init_method='random'`, the built table `t`
already in hand: `rand_num` is the result of
`random.randint(0, len(self.tm.columns) - 1)` and `us` the stream of
`random.random()` draws.  The seed output decodes the final `+`-segment of
the chosen row key (`first_ev_str[-1]`), the full row key stays the current
state, then `n` loop iterations run. -/
def compose (t : TMdata) (n : Nat) (randNum : Nat) (us : Nat → ℚ) :
    Option (List (List Event)) :=
  match t.rows.get? randNum with
  | none => none
  | some current =>
    match (pySplit '+' current).getLast? with
    | none => none
    | some lastSeg =>
      match decodeGroup (pySplit '&' lastSeg) with
      | none => none
      | some g => composeIter t us n 0 current [g]

/-- The (inclusive-range) size of the initial draw:
`random.randint(0, len(self.tm.columns) - 1)` yields `0 .. len(cols) - 1`,
even though the result indexes the ROW labels. -/
def composeInitRange (t : TMdata) : Nat := t.cols.length

/-- Every initial row lookup the draw can produce. -/
def composeInitCandidates (t : TMdata) : List (Option (List Char)) :=
  (List.range (composeInitRange t)).map (fun r => t.rows.get? r)

/-- The `compose` method at instrument level: when the stored table is
empty it is rebuilt by `self.build_tm(save_path=..., load_path=...)` — with
`order` left to its default of 1 (the configured `mc_order` is not passed);
a rebuild error propagates. -/
def Instrument.composeRun (inst : Instrument) (n randNum : Nat)
    (us : Nat → ℚ) : Option (List (List Event)) × Instrument :=
  match inst.tm with
  | some t => (compose t n randNum us, inst)
  | none =>
    match inst.build_tm with
    | (.error _, inst2) => (none, inst2)
    | (.ok t, inst2) => (compose t n randNum us, inst2)

/-! ## The sampling loop: what index is actually selected -/

theorem scanSelect_bounds {probs : List ℚ} {u acc : ℚ} {i j : Nat}
    (h : scanSelect probs u acc i = some j) : i ≤ j ∧ j < i + probs.length := by
  induction probs generalizing acc i with
  | nil => exact absurd h (by simp [scanSelect])
  | cons p rest ih =>
    unfold scanSelect at h
    split at h
    · injection h with h'
      subst h'
      simp only [List.length_cons]
      omega
    · obtain ⟨h1, h2⟩ := ih h
      simp only [List.length_cons]
      omega

theorem scanSelect_isSome_of_lt {probs : List ℚ} {u acc : ℚ} {i : Nat}
    (hacc : acc ≤ u) (h : u < acc + probs.sum) :
    ∃ j, scanSelect probs u acc i = some j := by
  induction probs generalizing acc i with
  | nil =>
    rw [List.sum_nil, add_zero] at h
    exact absurd hacc (not_le.mpr h)
  | cons p rest ih =>
    unfold scanSelect
    split
    · exact ⟨i, rfl⟩
    · apply ih
      · rename_i hlt
        push_neg at hlt
        exact hlt
      · rw [List.sum_cons] at h
        linarith

theorem selectSuccessor_eq_get {succs : List (List Char)} {probs : List ℚ}
    {u : ℚ} {j : Nat} (hlen : probs.length = succs.length)
    (hj : scanSelect probs u 0 0 = some j) :
    selectSuccessor succs probs u =
      succs.get? ((j + succs.length - 1) % succs.length) := by
  have hb := scanSelect_bounds hj
  have hjlt : j < succs.length := by omega
  have hpos : 0 < succs.length := by omega
  unfold selectSuccessor chosenIndex
  rw [hj]
  show pyIndex succs ((j : Int) - 1) =
    succs.get? ((j + succs.length - 1) % succs.length)
  cases j with
  | zero =>
    unfold pyIndex
    rw [if_neg (by omega), if_pos (by push_cast; omega)]
    have h1 : ((succs.length : Int) + (((0 : Nat) : Int) - 1)).toNat =
        succs.length - 1 := by omega
    have h2 : (0 + succs.length - 1) % succs.length = succs.length - 1 := by
      rw [Nat.zero_add]
      exact Nat.mod_eq_of_lt (by omega)
    rw [h1, h2]
  | succ k =>
    unfold pyIndex
    rw [if_pos (by omega)]
    have h1 : (((k + 1 : Nat) : Int) - 1).toNat = k := by omega
    have h2 : (k + 1 + succs.length - 1) % succs.length = k := by
      have h3 : k + 1 + succs.length - 1 = k + succs.length := by omega
      rw [h3, Nat.add_mod_right]
      exact Nat.mod_eq_of_lt (by omega)
    rw [h1, h2]

/-! ## Valid corpora and the shape of built state strings -/

/-- All events of all selected voices are legal values (what Score
Ingestion produces per the spec). -/
def ValidCorpus (V : List (List Event)) : Prop :=
  ∀ v ∈ V, ∀ e ∈ v, ValidEvent e

instance (V : List (List Event)) : Decidable (ValidCorpus V) := by
  unfold ValidCorpus
  exact inferInstance

theorem validEvent_repr_chars {e : Event} (h : ValidEvent e) :
    ∀ c ∈ Event.repr e, c ≠ '&' ∧ c ≠ '+' ∧ c.isWhitespace = false := by
  intro c hc
  unfold Event.repr at hc
  rcases List.mem_append.mp hc with hn | ht
  · rcases mem_intercalate_single hn with rfl | ⟨l, hl, hcl⟩
    · exact ⟨by decide, by decide, by decide⟩
    · obtain ⟨nn, hnn, rfl⟩ := List.mem_map.mp hl
      obtain ⟨_, h2, h3, h4⟩ := validNote_repr_chars (h.2.1 nn hnn) c hcl
      exact ⟨h2, h3, h4⟩
  · rcases List.mem_cons.mp ht with rfl | ht2
    · exact ⟨by decide, by decide, by decide⟩
    · rcases List.mem_cons.mp ht2 with rfl | ht3
      · exact ⟨by decide, by decide, by decide⟩
      · rcases List.mem_append.mp ht3 with hf | hd
        · rcases fracRepr_chars e.type c hf with h' | rfl | rfl
          · exact ⟨char_ne_of_class h' (by decide), char_ne_of_class h' (by decide),
              digit_not_ws h'⟩
          · exact ⟨by decide, by decide, by decide⟩
          · exact ⟨by decide, by decide, by decide⟩
        · rcases List.mem_cons.mp hd with rfl | hd2
          · exact ⟨by decide, by decide, by decide⟩
          · rcases durRepr_chars h.2.2.2 c hd2 with rfl | rfl | rfl | rfl | h'
            · exact ⟨by decide, by decide, by decide⟩
            · exact ⟨by decide, by decide, by decide⟩
            · exact ⟨by decide, by decide, by decide⟩
            · exact ⟨by decide, by decide, by decide⟩
            · exact ⟨char_ne_of_class h' (by decide), char_ne_of_class h' (by decide),
                digit_not_ws h'⟩

theorem foldl_min_le_init (a : Nat) (l : List Nat) : l.foldl min a ≤ a := by
  induction l generalizing a with
  | nil => exact le_refl a
  | cons b t ih => exact le_trans (ih (min a b)) (min_le_left a b)

theorem foldl_min_le_mem {x : Nat} {l : List Nat} (a : Nat) (hx : x ∈ l) :
    l.foldl min a ≤ x := by
  induction l generalizing a with
  | nil => exact absurd hx (List.not_mem_nil x)
  | cons b t ih =>
    rcases List.mem_cons.mp hx with rfl | hx2
    · exact le_trans (foldl_min_le_init (min a x) t) (min_le_right a x)
    · exact ih (min a b) hx2

theorem minLen_le {V : List (List Event)} {v : List Event} (hv : v ∈ V) :
    minLen V ≤ v.length := by
  unfold minLen
  cases hM : V.map List.length with
  | nil => simp at hM; subst hM; simp at hv
  | cons l ls =>
    have hmem : v.length ∈ V.map List.length := List.mem_map.mpr ⟨v, hv, rfl⟩
    rw [hM] at hmem
    rcases List.mem_cons.mp hmem with he | hm2
    · rw [← he]
      exact foldl_min_le_init _ _
    · exact foldl_min_le_mem _ hm2

theorem getD_mem {v : List Event} {k : Nat} (hk : k < v.length) :
    v.getD k defaultEvent ∈ v := by
  rw [List.getD_eq_getElem?_getD, List.getElem?_eq_getElem hk]
  exact List.getElem_mem hk

theorem groupStr_chars {V : List (List Event)} {m i : Nat}
    (hC : ValidCorpus V) (hm : 0 < m) (hlen : ∀ v ∈ V, m ≤ v.length) :
    ∀ c ∈ groupStr V m i, c ≠ '+' ∧ c.isWhitespace = false := by
  intro c hc
  unfold groupStr at hc
  rcases mem_intercalate_single hc with rfl | ⟨l, hl, hcl⟩
  · exact ⟨by decide, by decide⟩
  · obtain ⟨v, hv, rfl⟩ := List.mem_map.mp hl
    have hev : v.getD (i % m) defaultEvent ∈ v :=
      getD_mem (lt_of_lt_of_le (Nat.mod_lt i hm) (hlen v hv))
    obtain ⟨_, h2, h3⟩ := validEvent_repr_chars (hC v hv _ hev) c hcl
    exact ⟨h2, h3⟩

theorem groupStr_congr {V : List (List Event)} {m a b : Nat}
    (h : a % m = b % m) : groupStr V m a = groupStr V m b := by
  unfold groupStr
  rw [h]

theorem decodeGroup_groupStr {V : List (List Event)} {m i : Nat}
    (hC : ValidCorpus V) (hne : V ≠ []) (hm : 0 < m)
    (hlen : ∀ v ∈ V, m ≤ v.length) :
    pySplit '&' (groupStr V m i) =
      V.map (fun v => Event.repr (v.getD (i % m) defaultEvent)) ∧
    decodeGroup (V.map (fun v => Event.repr (v.getD (i % m) defaultEvent))) =
      some (V.map (fun v => v.getD (i % m) defaultEvent)) := by
  constructor
  · unfold groupStr
    apply pySplit_intercalate
    · intro hmap
      exact hne (List.map_eq_nil_iff.mp hmap)
    · intro l hl hin
      obtain ⟨v, hv, rfl⟩ := List.mem_map.mp hl
      have hev : v.getD (i % m) defaultEvent ∈ v :=
        getD_mem (lt_of_lt_of_le (Nat.mod_lt i hm) (hlen v hv))
      exact absurd rfl (validEvent_repr_chars (hC v hv _ hev) '&' hin).1
  · unfold decodeGroup
    induction V with
    | nil => rfl
    | cons v t ih =>
      have hev : v.getD (i % m) defaultEvent ∈ v :=
        getD_mem (lt_of_lt_of_le (Nat.mod_lt i hm) (hlen v (List.mem_cons_self v t)))
      rw [List.map_cons, List.mapM_cons,
        event_round_trip (hC v (List.mem_cons_self v t) _ hev)]
      by_cases hT : t = []
      · subst hT
        rfl
      · rw [ih (fun w hw e he => hC w (List.mem_cons_of_mem v hw) e he) hT
          (fun w hw => hlen w (List.mem_cons_of_mem v hw))]
        rfl

theorem intercalate_singleton {c : Char} (x : List Char) :
    List.intercalate [c] [x] = x := by
  simp [List.intercalate, List.intersperse]

theorem intercalate_append_single {c : Char} {xs : List (List Char)}
    (y : List Char) (hxs : xs ≠ []) :
    List.intercalate [c] (xs ++ [y]) = List.intercalate [c] xs ++ c :: y := by
  induction xs with
  | nil => exact absurd rfl hxs
  | cons a t ih =>
    cases t with
    | nil =>
      rw [List.singleton_append, intercalate_cons_cons, intercalate_singleton,
        intercalate_singleton]
    | cons b u =>
      calc List.intercalate [c] ((a :: b :: u) ++ [y])
          = a ++ c :: List.intercalate [c] ((b :: u) ++ [y]) :=
            intercalate_cons_cons c a b (u ++ [y])
        _ = a ++ c :: (List.intercalate [c] (b :: u) ++ c :: y) := by
            rw [ih (by simp)]
        _ = (a ++ c :: List.intercalate [c] (b :: u)) ++ c :: y := by simp
        _ = List.intercalate [c] (a :: b :: u) ++ c :: y := by
            rw [intercalate_cons_cons]

theorem stateStr_split {V : List (List Event)} {m order i : Nat}
    (hC : ValidCorpus V) (hm : 0 < m) (hlen : ∀ v ∈ V, m ≤ v.length)
    (hord : 1 ≤ order) :
    pySplit '+' (stateStr V m order i) =
      (List.range order).map (fun j => groupStr V m (i + j)) := by
  unfold stateStr
  apply pySplit_intercalate
  · intro hmap
    have : order = 0 := by
      have := congrArg List.length hmap
      simpa using this
    omega
  · intro l hl hin
    obtain ⟨j, _, rfl⟩ := List.mem_map.mp hl
    exact absurd rfl (groupStr_chars hC hm hlen '+' hin).1

theorem map_range_getLast (f : Nat → List Char) (k : Nat) :
    ((List.range (k + 1)).map f).getLast? = some (f k) := by
  rw [List.range_succ, List.map_append]
  simp

theorem stateStr_eq_groupStr_of_one {V : List (List Event)} {m i : Nat} :
    stateStr V m 1 i = groupStr V m i := by
  unfold stateStr
  rw [show List.range 1 = [0] from rfl]
  simp [intercalate_singleton]


theorem slideState_window {V : List (List Event)} {m order i : Nat}
    (hC : ValidCorpus V) (hm : 0 < m) (hlen : ∀ v ∈ V, m ≤ v.length)
    (hord : 1 ≤ order) :
    slideState (stateStr V m order i) (destStr V m order i) =
      stateStr V m order ((i + 1) % m) := by
  have hgcongr : ∀ j, groupStr V m ((i + 1) % m + j) = groupStr V m (i + 1 + j) :=
    fun j => groupStr_congr (Nat.mod_add_mod (i + 1) m j)
  cases order with
  | zero => omega
  | succ k =>
    cases k with
    | zero =>
      unfold slideState
      rw [stateStr_eq_groupStr_of_one,
        pyPartition_eq_none (fun hin => (groupStr_chars hC hm hlen '+' hin).1 rfl),
        stateStr_eq_groupStr_of_one]
      unfold destStr
      exact groupStr_congr (Nat.mod_mod_of_dvd (i + 1) dvd_rfl).symm
    | succ kk =>
      have hmm : ((List.range (kk + 1)).map Nat.succ).map
          (fun j => groupStr V m (i + j)) =
          (List.range (kk + 1)).map (fun j => groupStr V m (i + 1 + j)) := by
        rw [List.map_map]
        apply List.map_congr_left
        intro j _
        show groupStr V m (i + (j + 1)) = groupStr V m (i + 1 + j)
        congr 1
        omega
      have hsplit : stateStr V m (kk + 2) i =
          groupStr V m i ++ '+' ::
            List.intercalate ['+']
              ((List.range (kk + 1)).map (fun j => groupStr V m (i + 1 + j))) := by
        unfold stateStr
        rw [List.range_succ_eq_map, List.map_cons, hmm]
        cases hcs : (List.range (kk + 1)).map (fun j => groupStr V m (i + 1 + j)) with
        | nil => exact absurd hcs (by simp)
        | cons b u =>
          rw [intercalate_cons_cons]
          rfl
      have hfirst : pyPartition '+' (stateStr V m (kk + 2) i) =
          some (groupStr V m i,
            List.intercalate ['+']
              ((List.range (kk + 1)).map (fun j => groupStr V m (i + 1 + j)))) := by
        rw [hsplit]
        exact pyPartition_of_not_mem _
          (fun hin => (groupStr_chars hC hm hlen '+' hin).1 rfl)
      have hR : stateStr V m (kk + 2) ((i + 1) % m) =
          List.intercalate ['+']
            ((List.range (kk + 1)).map (fun j => groupStr V m (i + 1 + j))) ++
            '+' :: groupStr V m (i + 1 + (kk + 1)) := by
        unfold stateStr
        have hcongr2 : (List.range (kk + 2)).map
            (fun j => groupStr V m ((i + 1) % m + j)) =
            (List.range (kk + 2)).map (fun j => groupStr V m (i + 1 + j)) :=
          List.map_congr_left (fun j _ => hgcongr j)
        rw [hcongr2, List.range_succ, List.map_append, List.map_cons, List.map_nil,
          intercalate_append_single _ (by simp)]
      unfold slideState
      rw [hfirst, hR]
      have hidx : i + 1 + (kk + 1) = i + (kk + 2) := by omega
      rw [hidx]
      rfl

/-- The first `+`-segment of a string (identity when there is no `+`). -/
def firstSeg (s : List Char) : List Char :=
  match pyPartition '+' s with
  | none => s
  | some (x, _) => x

theorem firstSeg_stateStr {V : List (List Event)} {m order i : Nat}
    (hC : ValidCorpus V) (hm : 0 < m) (hlen : ∀ v ∈ V, m ≤ v.length)
    (hord : 1 ≤ order) :
    firstSeg (stateStr V m order i) = groupStr V m i := by
  cases order with
  | zero => omega
  | succ k =>
    cases k with
    | zero =>
      unfold firstSeg
      rw [stateStr_eq_groupStr_of_one,
        pyPartition_eq_none (fun hin => (groupStr_chars hC hm hlen '+' hin).1 rfl)]
    | succ kk =>
      have hmm : ((List.range (kk + 1)).map Nat.succ).map
          (fun j => groupStr V m (i + j)) =
          (List.range (kk + 1)).map (fun j => groupStr V m (i + 1 + j)) := by
        rw [List.map_map]
        apply List.map_congr_left
        intro j _
        show groupStr V m (i + (j + 1)) = groupStr V m (i + 1 + j)
        congr 1
        omega
      have hsplit : stateStr V m (kk + 2) i =
          groupStr V m i ++ '+' ::
            List.intercalate ['+']
              ((List.range (kk + 1)).map (fun j => groupStr V m (i + 1 + j))) := by
        unfold stateStr
        rw [List.range_succ_eq_map, List.map_cons, hmm]
        cases hcs : (List.range (kk + 1)).map (fun j => groupStr V m (i + 1 + j)) with
        | nil => exact absurd hcs (by simp)
        | cons b u =>
          rw [intercalate_cons_cons]
          rfl
      unfold firstSeg
      rw [hsplit, pyPartition_of_not_mem _
        (fun hin => (groupStr_chars hC hm hlen '+' hin).1 rfl)]

theorem colsList_length_le_rowsList {V : List (List Event)} {order : Nat}
    (hC : ValidCorpus V) (hm : 0 < minLen V) (hlen : ∀ v ∈ V, minLen V ≤ v.length)
    (hord : 1 ≤ order) :
    (colsList V order).length ≤ (rowsList V order).length := by
  classical
  have hcnd : (colsList V order).Nodup := List.nodup_dedup _
  have hrnd : (rowsList V order).Nodup := List.nodup_dedup _
  have hsub : (colsList V order).toFinset ⊆
      (rowsList V order).toFinset.image firstSeg := by
    intro c hc
    rw [List.mem_toFinset] at hc
    obtain ⟨i, hi, rfl⟩ := mem_colsList_iff.mp hc
    have hi2 : (i + order) % minLen V < minLen V := Nat.mod_lt _ hm
    have hrmem : stateStr V (minLen V) order ((i + order) % minLen V) ∈
        rowsList V order := mem_rowsList_iff.mpr ⟨_, hi2, rfl⟩
    rw [Finset.mem_image]
    refine ⟨_, List.mem_toFinset.mpr hrmem, ?_⟩
    rw [firstSeg_stateStr hC hm hlen hord]
    unfold destStr
    exact groupStr_congr (Nat.mod_mod_of_dvd (i + order) dvd_rfl)
  calc (colsList V order).length
      = (colsList V order).toFinset.card := (List.toFinset_card_of_nodup hcnd).symm
    _ ≤ ((rowsList V order).toFinset.image firstSeg).card := Finset.card_le_card hsub
    _ ≤ (rowsList V order).toFinset.card := Finset.card_image_le
    _ = (rowsList V order).length := List.toFinset_card_of_nodup hrnd

theorem entry_nonneg (V : List (List Event)) (order : Nat) (r c : List Char) :
    0 ≤ (buildTable V order).entry r c := by
  show 0 ≤ normEntry (rawCount V order) (colsList V order) r c
  unfold normEntry
  apply div_nonneg
  · unfold fallbackW
    split
    · norm_num
    · exact rawCount_nonneg V order r c
  · apply List.sum_nonneg
    intro x hx
    obtain ⟨c', _, rfl⟩ := List.mem_map.mp hx
    unfold fallbackW
    split
    · norm_num
    · exact rawCount_nonneg V order r c'

theorem rowSuccessors_witness {V : List (List Event)} {order : Nat}
    {x c : List Char} (hx : x ∈ rowsList V order)
    (hc : c ∈ rowSuccessors (buildTable V order) x) :
    ∃ i, i < minLen V ∧ stateStr V (minLen V) order i = x ∧
      destStr V (minLen V) order i = c := by
  unfold rowSuccessors at hc
  rw [List.mem_filter] at hc
  obtain ⟨hcc, hpos⟩ := hc
  rw [decide_eq_true_eq] at hpos
  have hraw : 0 < rawCount V order x c := by
    by_contra hle
    push_neg at hle
    have hz : rawCount V order x c = 0 :=
      le_antisymm hle (rawCount_nonneg V order x c)
    have hfb : fallbackW (rawCount V order) (colsList V order) x c = 0 := by
      unfold fallbackW
      rw [if_neg (rowRaw_pos_of_mem hx).ne', hz]
    have : (buildTable V order).entry x c = 0 := by
      show normEntry (rawCount V order) (colsList V order) x c = 0
      unfold normEntry
      rw [hfb, zero_div]
    rw [this] at hpos
    exact lt_irrefl 0 hpos
  unfold rawCount at hraw
  have hne : ((List.range (minLen V)).filter
      (fun i => stateStr V (minLen V) order i = x ∧
        destStr V (minLen V) order i = c)) ≠ [] := by
    intro he
    rw [he] at hraw
    simp at hraw
  obtain ⟨i, hi⟩ := List.exists_mem_of_ne_nil _ hne
  rw [List.mem_filter] at hi
  obtain ⟨hir, hcond⟩ := hi
  rw [decide_eq_true_eq] at hcond
  exact ⟨i, List.mem_range.mp hir, hcond.1, hcond.2⟩

theorem sum_filter_pos_eq {f : List Char → ℚ} {l : List (List Char)}
    (h : ∀ c ∈ l, 0 ≤ f c) :
    ((l.filter (fun c => 0 < f c)).map f).sum = (l.map f).sum := by
  induction l with
  | nil => rfl
  | cons a t ih =>
    have ha := h a (List.mem_cons_self a t)
    have ht := fun c hc => h c (List.mem_cons_of_mem a hc)
    by_cases hp : 0 < f a
    · rw [List.filter_cons_of_pos (by simpa using hp), List.map_cons,
        List.map_cons, List.sum_cons, List.sum_cons, ih ht]
    · have hz : f a = 0 := le_antisymm (not_lt.mp hp) ha
      rw [List.filter_cons_of_neg (by simpa using hp), List.map_cons,
        List.sum_cons, hz, zero_add, ih ht]

theorem rowSuccessors_mass {V : List (List Event)} {order : Nat}
    (hm : 0 < minLen V) (x : List Char) :
    ((rowSuccessors (buildTable V order) x).map
      ((buildTable V order).entry x)).sum = 1 := by
  unfold rowSuccessors
  rw [sum_filter_pos_eq (fun c _ => entry_nonneg V order x c)]
  exact buildTable_row_sum hm x

theorem composeStep_spec {V : List (List Event)} {order : Nat}
    (hC : ValidCorpus V) (hne : V ≠ []) (hm : 0 < minLen V)
    (hlen : ∀ v ∈ V, minLen V ≤ v.length) (hord : 1 ≤ order)
    {current : List Char} (hcur : current ∈ rowsList V order)
    (lastG : List Event) {u : ℚ} (hu0 : 0 ≤ u) (hu1 : u < 1) :
    ∃ app cur2, composeStep (buildTable V order) current lastG u =
      some (app, cur2) ∧ app.length = 1 ∧ cur2 ∈ rowsList V order := by
  unfold composeStep
  rw [if_pos (show current ∈ (buildTable V order).rows from hcur)]
  by_cases hs : rowSuccessors (buildTable V order) current = []
  · rw [if_pos hs]
    exact ⟨[lastG], current, rfl, rfl, hcur⟩
  · rw [if_neg hs]
    -- the walk must select some index because the successor mass is 1 > u
    have hmass := @rowSuccessors_mass V order hm current
    have hlt : u < 0 + ((rowSuccessors (buildTable V order) current).map
        ((buildTable V order).entry current)).sum := by
      rw [hmass]
      linarith
    obtain ⟨j, hj⟩ := @scanSelect_isSome_of_lt _ _ _ 0 hu0 hlt
    have hlens : ((rowSuccessors (buildTable V order) current).map
        ((buildTable V order).entry current)).length =
        (rowSuccessors (buildTable V order) current).length := List.length_map _ _
    have hsel := selectSuccessor_eq_get hlens hj
    have hnpos : 0 < (rowSuccessors (buildTable V order) current).length :=
      List.length_pos.mpr hs
    have hidx : (j + (rowSuccessors (buildTable V order) current).length - 1) %
        (rowSuccessors (buildTable V order) current).length <
        (rowSuccessors (buildTable V order) current).length := Nat.mod_lt _ hnpos
    set c := (rowSuccessors (buildTable V order) current).get
      ⟨(j + (rowSuccessors (buildTable V order) current).length - 1) %
        (rowSuccessors (buildTable V order) current).length, hidx⟩ with hcdef
    have hget : (rowSuccessors (buildTable V order) current).get?
        ((j + (rowSuccessors (buildTable V order) current).length - 1) %
          (rowSuccessors (buildTable V order) current).length) = some c :=
      List.get?_eq_get hidx
    have hcmem : c ∈ rowSuccessors (buildTable V order) current :=
      List.get_mem _ _ hidx
    obtain ⟨i, hi, hstate, hdest⟩ := rowSuccessors_witness hcur hcmem
    -- decoding the selected successor succeeds
    obtain ⟨hsplitAmp, hdec⟩ := @decodeGroup_groupStr V (minLen V) (i + order) hC hne hm hlen
    have hcg : c = groupStr V (minLen V) (i + order) := by
      rw [← hdest]
      rfl
    have hstrip : ((pySplit '&' c).map pyStrip) =
        V.map (fun v => Event.repr (v.getD ((i + order) % minLen V) defaultEvent)) := by
      rw [hcg, hsplitAmp, List.map_map]
      apply List.map_congr_left
      intro v hv
      have hev : v.getD ((i + order) % minLen V) defaultEvent ∈ v :=
        getD_mem (lt_of_lt_of_le (Nat.mod_lt _ hm) (hlen v hv))
      exact pyStrip_of_no_ws
        (fun ch hch => (validEvent_repr_chars (hC v hv _ hev) ch hch).2.2)
    simp only [hsel, hget]
    simp only [hstrip, hdec]
    refine ⟨[V.map (fun v => v.getD ((i + order) % minLen V) defaultEvent)],
      slideState current c, rfl, rfl, ?_⟩
    rw [← hstate, hcg, show groupStr V (minLen V) (i + order) =
      destStr V (minLen V) order i from rfl,
      slideState_window hC hm hlen hord]
    exact mem_rowsList_iff.mpr ⟨(i + 1) % minLen V, Nat.mod_lt _ hm, rfl⟩

theorem composeIter_spec {V : List (List Event)} {order : Nat}
    (hC : ValidCorpus V) (hne : V ≠ []) (hm : 0 < minLen V)
    (hlen : ∀ v ∈ V, minLen V ≤ v.length) (hord : 1 ≤ order)
    {us : Nat → ℚ} (hu : ∀ k, 0 ≤ us k ∧ us k < 1) :
    ∀ (k step : Nat) (current : List Char) (comp : List (List Event)),
      current ∈ rowsList V order → comp ≠ [] →
      ∃ l, composeIter (buildTable V order) us k step current comp = some l ∧
        l.length = comp.length + k := by
  intro k
  induction k with
  | zero =>
    intro step current comp hcur hcomp
    exact ⟨comp, rfl, by simp⟩
  | succ k ih =>
    intro step current comp hcur hcomp
    have hlast : comp.getLast?.isSome := by
      rw [List.getLast?_isSome]
      exact hcomp
    obtain ⟨lastG, hlastG⟩ := Option.isSome_iff_exists.mp hlast
    obtain ⟨app, cur2, hstep, happ, hcur2⟩ :=
      composeStep_spec hC hne hm hlen hord hcur lastG (hu step).1 (hu step).2
    obtain ⟨l, hl, hlen2⟩ := ih (step + 1) cur2 (comp ++ app)
      hcur2 (by simp [hcomp])
    refine ⟨l, ?_, ?_⟩
    · unfold composeIter
      simp only [hlastG, hstep]
      exact hl
    · rw [hlen2, List.length_append, happ]
      omega

theorem compose_buildTable_length {V : List (List Event)} {order n r : Nat}
    {us : Nat → ℚ} (hC : ValidCorpus V) (hne : V ≠ [])
    (hord : 1 ≤ order) (hlt : order < minLen V)
    (hr : r < (buildTable V order).cols.length)
    (hu : ∀ k, 0 ≤ us k ∧ us k < 1) :
    ∃ l, compose (buildTable V order) n r us = some l ∧ l.length = n + 1 := by
  have hm : 0 < minLen V := by omega
  have hlen : ∀ v ∈ V, minLen V ≤ v.length := fun v hv => minLen_le hv
  have hr2 : r < (rowsList V order).length :=
    lt_of_lt_of_le hr (colsList_length_le_rowsList hC hm hlen hord)
  set current := (rowsList V order).get ⟨r, hr2⟩ with hcdef
  have hget : (buildTable V order).rows.get? r = some current :=
    List.get?_eq_get hr2
  have hcur : current ∈ rowsList V order := List.get_mem _ _ hr2
  obtain ⟨i, hi, hstate⟩ := mem_rowsList_iff.mp hcur
  obtain ⟨k, rfl⟩ : ∃ k, order = k + 1 := ⟨order - 1, by omega⟩
  have hlast : (pySplit '+' current).getLast? =
      some (groupStr V (minLen V) (i + k)) := by
    rw [← hstate, stateStr_split hC hm hlen hord, map_range_getLast]
  obtain ⟨hsplitAmp, hdec⟩ := @decodeGroup_groupStr V (minLen V) (i + k) hC hne hm hlen
  obtain ⟨l, hl, hlen2⟩ := composeIter_spec hC hne hm hlen hord hu n 0 current
    [V.map (fun v => v.getD ((i + k) % minLen V) defaultEvent)] hcur (by simp)
  refine ⟨l, ?_, by rw [hlen2]; simp [Nat.add_comm]⟩
  unfold compose
  simp only [hget, hlast, hsplitAmp, hdec]
  exact hl

/-! ## Error paths of `build_tm` -/

/-- Whether `pat` occurs as a contiguous substring. -/
def startsWithList : List Char → List Char → Bool
  | [], _ => true
  | _ :: _, [] => false
  | a :: s, b :: t => a == b && startsWithList s t

/-- Substring test by scanning every suffix. -/
def hasSub (pat : List Char) : List Char → Bool
  | [] => pat == []
  | a :: s => startsWithList pat (a :: s) || hasSub pat s

theorem startsWithList_append (pat B : List Char) :
    startsWithList pat (pat ++ B) = true := by
  induction pat with
  | nil => rfl
  | cons a s ih => simp [startsWithList, ih]

theorem hasSub_of_append (pat A B : List Char) :
    hasSub pat (A ++ pat ++ B) = true := by
  induction A with
  | nil =>
    rw [List.nil_append]
    cases pat with
    | nil =>
      cases B with
      | nil => rfl
      | cons b t => simp [hasSub, startsWithList]
    | cons p ps =>
      show (startsWithList (p :: ps) ((p :: ps) ++ B) ||
        hasSub (p :: ps) (ps ++ B)) = true
      rw [startsWithList_append]
      simp
  | cons a t ih =>
    rw [List.cons_append, List.cons_append]
    unfold hasSub
    rw [ih]
    simp

theorem build_tm_order_error (inst : Instrument) (order : Nat)
    (hne : inst.voicesData ≠ []) (hord : minLen inst.voicesData ≤ order) :
    inst.build_tm order =
      (.error (orderErrMsg order (minLen inst.voicesData)), inst) ∧
    hasSub (natRepr order) (orderErrMsg order (minLen inst.voicesData)) = true ∧
    hasSub (natRepr (minLen inst.voicesData))
      (orderErrMsg order (minLen inst.voicesData)) = true := by
  refine ⟨?_, ?_, ?_⟩
  · unfold Instrument.build_tm
    rw [if_neg (by simpa using hne), if_neg hne, if_pos hord]
  · have hmsg : orderErrMsg order (minLen inst.voicesData) =
        String.toList "Order (" ++ natRepr order ++
          (String.toList ") must be less than the minimum voice length (" ++
            natRepr (minLen inst.voicesData) ++ [')']) := by
      unfold orderErrMsg
      simp [List.append_assoc]
    rw [hmsg]
    exact hasSub_of_append _ _ _
  · unfold orderErrMsg
    exact hasSub_of_append _ _ _

theorem build_tm_empty_error (inst : Instrument) (order : Nat)
    (he : inst.voicesData = []) :
    inst.build_tm order = (.error emptyVoicesMsg, inst) := by
  unfold Instrument.build_tm
  rw [if_pos (by simp [he])]

theorem build_tm_ok {inst : Instrument} {order : Nat} {t : TMdata}
    {inst2 : Instrument} (h : inst.build_tm order = (.ok t, inst2)) :
    inst.voicesData ≠ [] ∧ order < minLen inst.voicesData ∧
    t = buildTable inst.voicesData order ∧
    inst2 = { inst with tm := some t } := by
  unfold Instrument.build_tm at h
  split at h
  · exact absurd (congrArg Prod.fst h) (by simp)
  · split at h
    · exact absurd (congrArg Prod.fst h) (by simp)
    · split at h
      · exact absurd (congrArg Prod.fst h) (by simp)
      · split at h
        · exact absurd (congrArg Prod.fst h) (by simp)
        · rename_i h1 h2 h3 h4
          have ht : t = buildTable inst.voicesData order := by
            have := congrArg Prod.fst h
            simp at this
            exact this.symm
          refine ⟨h2, by omega, ht, ?_⟩
          have := congrArg Prod.snd h
          simp at this
          rw [← this, ht]

/-! ## Scenario A: a single voice of three distinct events, order 1 -/

theorem repr_injective_of_valid {e1 e2 : Event} (h1 : ValidEvent e1)
    (h2 : ValidEvent e2) (hne : e1 ≠ e2) : Event.repr e1 ≠ Event.repr e2 := by
  intro he
  have ha := event_round_trip h1
  rw [he, event_round_trip h2] at ha
  exact hne (Option.some.injEq _ _ ▸ ha).symm

theorem normEntry_of_sum_ne {count : List Char → List Char → ℚ}
    {cols : List (List Char)} {r : List Char}
    (h : (cols.map (count r)).sum ≠ 0) (c : List Char) :
    normEntry count cols r c = count r c / (cols.map (count r)).sum := by
  have hco : cols.map (fallbackW count cols r) = cols.map (count r) :=
    List.map_congr_left (fun x _ => by unfold fallbackW; rw [if_neg h])
  unfold normEntry
  rw [hco]
  show fallbackW count cols r c / _ = _
  unfold fallbackW
  rw [if_neg h]

theorem scenarioA_table {e1 e2 e3 : Event}
    (h1 : ValidEvent e1) (h2 : ValidEvent e2) (h3 : ValidEvent e3)
    (h12 : e1 ≠ e2) (h13 : e1 ≠ e3) (h23 : e2 ≠ e3) :
    (buildTable [[e1, e2, e3]] 1).rows =
      [Event.repr e1, Event.repr e2, Event.repr e3] ∧
    (buildTable [[e1, e2, e3]] 1).entry (Event.repr e1) (Event.repr e2) = 1 ∧
    (buildTable [[e1, e2, e3]] 1).entry (Event.repr e2) (Event.repr e3) = 1 ∧
    (buildTable [[e1, e2, e3]] 1).entry (Event.repr e3) (Event.repr e1) = 1 := by
  have hr12 := repr_injective_of_valid h1 h2 h12
  have hr13 := repr_injective_of_valid h1 h3 h13
  have hr23 := repr_injective_of_valid h2 h3 h23
  have hm3 : minLen [[e1, e2, e3]] = 3 := rfl
  have hg : ∀ i : Nat, i < 3 →
      groupStr [[e1, e2, e3]] 3 i =
        Event.repr ([e1, e2, e3].getD i defaultEvent) := by
    intro i hi
    unfold groupStr
    rw [Nat.mod_eq_of_lt hi, List.map_cons, List.map_nil, intercalate_singleton]
  have hg0 : groupStr [[e1, e2, e3]] 3 0 = Event.repr e1 := hg 0 (by norm_num)
  have hg1 : groupStr [[e1, e2, e3]] 3 1 = Event.repr e2 := hg 1 (by norm_num)
  have hg2 : groupStr [[e1, e2, e3]] 3 2 = Event.repr e3 := hg 2 (by norm_num)
  have hg3 : groupStr [[e1, e2, e3]] 3 3 = Event.repr e1 := by
    rw [groupStr_congr (show 3 % 3 = 0 % 3 from rfl)]
    exact hg0
  have hs : ∀ i : Nat, stateStr [[e1, e2, e3]] 3 1 i = groupStr [[e1, e2, e3]] 3 i :=
    fun i => stateStr_eq_groupStr_of_one
  have hd : ∀ i : Nat,
      destStr [[e1, e2, e3]] 3 1 i = groupStr [[e1, e2, e3]] 3 (i + 1) :=
    fun i => rfl
  have hrows : rowsList [[e1, e2, e3]] 1 =
      [Event.repr e1, Event.repr e2, Event.repr e3] := by
    unfold rowsList
    rw [hm3, show List.range 3 = [0, 1, 2] from rfl]
    simp only [List.map_cons, List.map_nil, hs, hg0, hg1, hg2]
    rw [List.dedup_eq_self.mpr]
    simp [hr12, hr13, hr23]
  have hcols : colsList [[e1, e2, e3]] 1 =
      [Event.repr e2, Event.repr e3, Event.repr e1] := by
    unfold colsList
    rw [hm3, show List.range 3 = [0, 1, 2] from rfl]
    simp only [List.map_cons, List.map_nil, hd, hg1, hg2, hg3]
    rw [List.dedup_eq_self.mpr]
    simp [hr23, Ne.symm hr12, Ne.symm hr13]
  have hginj : ∀ (x y : Nat), x < 3 → y < 3 →
      (groupStr [[e1, e2, e3]] 3 x = groupStr [[e1, e2, e3]] 3 y ↔ x = y) := by
    intro x y hx hy
    constructor
    · intro hxy
      by_contra hne
      interval_cases x <;> interval_cases y <;>
        simp_all [hg0, hg1, hg2]
    · intro hxy
      rw [hxy]
  have hcount : ∀ (a b : Nat), a < 3 → b < 3 →
      rawCount [[e1, e2, e3]] 1 (groupStr [[e1, e2, e3]] 3 a)
        (groupStr [[e1, e2, e3]] 3 b) =
      if b = (a + 1) % 3 then 1 else 0 := by
    intro a b ha hb
    have hcond : ∀ i : Nat, i < 3 →
        ((stateStr [[e1, e2, e3]] 3 1 i = groupStr [[e1, e2, e3]] 3 a ∧
          destStr [[e1, e2, e3]] 3 1 i = groupStr [[e1, e2, e3]] 3 b) ↔
          (i = a ∧ b = (i + 1) % 3)) := by
      intro i hi
      rw [hs, hd]
      constructor
      · rintro ⟨hsa, hdb⟩
        have hia : i = a := (hginj i a hi ha).mp hsa
        have hdb2 : groupStr [[e1, e2, e3]] 3 ((i + 1) % 3) =
            groupStr [[e1, e2, e3]] 3 b := by
          rw [groupStr_congr (show ((i + 1) % 3) % 3 = (i + 1) % 3 by omega)]
          exact hdb
        exact ⟨hia, ((hginj _ b (by omega) hb).mp hdb2).symm⟩
      · rintro ⟨rfl, rfl⟩
        exact ⟨rfl, groupStr_congr (by omega)⟩
    unfold rawCount
    rw [hm3, show List.range 3 = [0, 1, 2] from rfl]
    rw [List.filter_cons, List.filter_cons, List.filter_cons, List.filter_nil]
    simp only [decide_eq_true_eq, hcond 0 (by norm_num), hcond 1 (by norm_num),
      hcond 2 (by norm_num)]
    interval_cases a <;> interval_cases b <;> simp_all
  have hsum : ∀ a : Nat, a < 3 →
      ((colsList [[e1, e2, e3]] 1).map
        (rawCount [[e1, e2, e3]] 1 (groupStr [[e1, e2, e3]] 3 a))).sum = 1 := by
    intro a ha
    rw [hcols, ← hg1, ← hg2, ← hg3]
    simp only [List.map_cons, List.map_nil, List.sum_cons, List.sum_nil]
    have e31 : groupStr [[e1, e2, e3]] 3 3 = groupStr [[e1, e2, e3]] 3 0 := by
      rw [hg3, hg0]
    rw [hcount a 1 ha (by norm_num), hcount a 2 ha (by norm_num), e31,
      hcount a 0 ha (by norm_num)]
    interval_cases a <;> norm_num
  have hentry : ∀ (a b : Nat), a < 3 → b < 3 → b = (a + 1) % 3 →
      (buildTable [[e1, e2, e3]] 1).entry (groupStr [[e1, e2, e3]] 3 a)
        (groupStr [[e1, e2, e3]] 3 b) = 1 := by
    intro a b ha hb hab
    show normEntry (rawCount [[e1, e2, e3]] 1) (colsList [[e1, e2, e3]] 1) _ _ = 1
    rw [normEntry_of_sum_ne (by rw [hsum a ha]; norm_num), hcount a b ha hb,
      if_pos hab, hsum a ha]
    norm_num
  refine ⟨hrows, ?_, ?_, ?_⟩
  · rw [← hg0, ← hg1]
    exact hentry 0 1 (by norm_num) (by norm_num) rfl
  · rw [← hg1, ← hg2]
    exact hentry 1 2 (by norm_num) (by norm_num) rfl
  · rw [← hg2, ← hg0]
    exact hentry 2 0 (by norm_num) (by norm_num) rfl

/-! ## `compose` rebuilds with the default order -/

theorem composeRun_ignores_mc_order (V : List (List Event)) (o1 o2 n r : Nat)
    (us : Nat → ℚ) :
    (Instrument.composeRun ⟨V, o1, none⟩ n r us).1 =
    (Instrument.composeRun ⟨V, o2, none⟩ n r us).1 := by
  unfold Instrument.composeRun Instrument.build_tm
  by_cases a1 : V.length = 0
  · simp [a1]
  · by_cases a2 : V = []
    · simp [a1, a2]
    · by_cases a3 : minLen V ≤ 1
      · simp [a1, a2, a3]
      · by_cases a4 : (colsList V 1).length = 0
        · simp [a1, a2, a3, a4]
        · simp [a1, a2, a3, a4]

theorem composeRun_rebuild_order_one (V : List (List Event)) (o n r : Nat)
    (us : Nat → ℚ) (hne : V ≠ []) (hm : 1 < minLen V)
    (hc : (colsList V 1).length ≠ 0) :
    (Instrument.composeRun ⟨V, o, none⟩ n r us).1 =
      compose (buildTable V 1) n r us ∧
    (Instrument.composeRun ⟨V, o, none⟩ n r us).2.tm = some (buildTable V 1) := by
  unfold Instrument.composeRun Instrument.build_tm
  have a1 : ¬((⟨V, o, none⟩ : Instrument).voicesData.length = 0) := by
    simpa using hne
  have a3 : ¬(minLen V ≤ 1) := by omega
  simp [a1, hne, a3, hc]

/-! ## Shapes rejected (and not rejected) by `Event.from_string` -/

theorem from_string_none_of_no_sep {s : List Char} (h : hasGG s = false) :
    Event.from_string s = none := by
  unfold Event.from_string
  rw [pyRPartGG_eq_none h]

theorem from_string_none_of_no_bar {s nb tb : List Char}
    (hrp : pyRPartGG s = some (nb, tb)) (hbar : '|' ∉ tb) :
    Event.from_string s = none := by
  unfold Event.from_string
  rw [hrp]
  simp only
  split
  · rfl
  · split
    · rfl
    · rw [pyPartition_eq_none hbar]

theorem from_string_none_of_no_notes {s nb tb : List Char}
    (hrp : pyRPartGG s = some (nb, tb))
    (hz : (pySplit '>' nb).filter (fun n => n ≠ []) = []) :
    Event.from_string s = none := by
  unfold Event.from_string
  rw [hrp]
  simp only [hz]
  simp

section ConcreteEvaluation

/- `Rat.add`, `Rat.mul` and `Rat.inv` are `@[irreducible]` in Batteries,
which blocks `decide` on concrete table entries; they are kernel-reducible,
so re-allow unfolding locally for the concrete evaluations below. -/
attribute [local semireducible] Rat.add Rat.mul Rat.inv

/-! ## Concrete test data -/

/-- A quarter-note A4 on an F-clef. -/
def evA : Event := ⟨[⟨['F'], 4, ['A'], [], ['4'], []⟩], mkRat 1 4, none⟩

/-- A quarter-note B4. -/
def evB : Event := ⟨[⟨['F'], 4, ['B'], [], ['4'], []⟩], mkRat 1 4, none⟩

/-- A quarter-note C4. -/
def evC : Event := ⟨[⟨['F'], 4, ['C'], [], ['4'], []⟩], mkRat 1 4, none⟩

/-- A chord with an articulated sharp note and a rest, with an explicit
duration. -/
def evChord : Event :=
  ⟨[⟨['G'], 2, ['G'], ['#'], ['3'], [['s', 't', 'a', 'c'], ['a', 'c', 'c']]⟩,
    ⟨['G'], 2, ['R'], [], [], []⟩], mkRat 3 8, some ['1', '2']⟩

/-! ## The claims -/

/-- C1: decoding inverts encoding — for every valid Note and every valid
Event (rests, chords and articulated events included),
`from_string (repr x) = some x`. -/
theorem claim_C1_round_trip :
    (∀ n : Note, ValidNote n → Note.from_string (Note.repr n) = some n) ∧
    (∀ e : Event, ValidEvent e → Event.from_string (Event.repr e) = some e) :=
  ⟨fun _ h => note_round_trip h, fun _ h => event_round_trip h⟩

/-- C1 witness: the round trip evaluated at a rest-bearing note and at a
chord with articulations and a duration. -/
theorem claim_C1_witness :
    ValidNote ⟨['F'], 4, ['R'], [], [], []⟩ ∧
    Note.from_string (Note.repr ⟨['F'], 4, ['R'], [], [], []⟩) =
      some ⟨['F'], 4, ['R'], [], [], []⟩ ∧
    ValidEvent evChord ∧
    Event.from_string (Event.repr evChord) = some evChord :=
  ⟨by decide, claim_C1_round_trip.1 _ (by decide), by decide,
    claim_C1_round_trip.2 _ (by decide)⟩

/-- C2 counterexample: with successors `a`, `b` of probability 1/2 each and
draw u = 1/4, the running sum first exceeds u at index 0 — the claim says
`a` (whose interval [0, 1/2) contains u) is selected — but the loop's
`i -= 1` makes it read index -1, selecting `b`. -/
theorem claim_C2_counterexample :
    scanSelect [mkRat 1 2, mkRat 1 2] (mkRat 1 4) 0 0 = some 0 ∧
    [['a'], ['b']].get? 0 = some ['a'] ∧
    selectSuccessor [['a'], ['b']] [mkRat 1 2, mkRat 1 2] (mkRat 1 4) =
      some ['b'] ∧
    (['b'] : List Char) ≠ ['a'] := by decide

/-- C2 (amended): the successor selected is the cyclic PREDECESSOR of the
one at which the running cumulative sum first exceeds u — if that first
index is j, the loop reads index (j + n - 1) mod n (index -1, the last
successor, when j = 0). -/
theorem claim_C2_selected_index {succs : List (List Char)} {probs : List ℚ}
    {u : ℚ} {j : Nat} (hlen : probs.length = succs.length)
    (hj : scanSelect probs u 0 0 = some j) :
    selectSuccessor succs probs u =
      succs.get? ((j + succs.length - 1) % succs.length) :=
  selectSuccessor_eq_get hlen hj

/-- C2 witness: with u = 3/4 the first exceed happens at index 1, so the
loop selects index 0. -/
theorem claim_C2_witness :
    selectSuccessor [['a'], ['b']] [mkRat 1 2, mkRat 1 2] (mkRat 3 4) =
      some ['a'] := by
  rw [claim_C2_selected_index
    (by decide :
      ([mkRat 1 2, mkRat 1 2] : List ℚ).length =
        ([['a'], ['b']] : List (List Char)).length)
    (by decide :
      scanSelect [mkRat 1 2, mkRat 1 2] (mkRat 3 4) 0 0 = some 1)]
  decide

/-- C3: for every table built by `build_tm` over a valid corpus with a
positive order, and every n, `compose` returns exactly n + 1 multi-voice
event groups — for every admissible initial draw and every stream of
uniform draws in [0, 1). -/
theorem claim_C3_compose_length (inst : Instrument) (order n r : Nat)
    (us : Nat → ℚ) (t : TMdata) (inst2 : Instrument)
    (hC : ValidCorpus inst.voicesData) (hord : 1 ≤ order)
    (hok : inst.build_tm order = (.ok t, inst2))
    (hr : r < t.cols.length) (hu : ∀ k, 0 ≤ us k ∧ us k < 1) :
    ∃ l, compose t n r us = some l ∧ l.length = n + 1 := by
  obtain ⟨hne, hlt, ht, _⟩ := build_tm_ok hok
  subst ht
  exact compose_buildTable_length hC hne hord hlt hr hu

/-- C3 witness: a two-event corpus, order 1, two simulation steps. -/
theorem claim_C3_witness :
    ∃ l, compose (buildTable [[evA, evB]] 1) 2 0 (fun _ => mkRat 1 2) = some l ∧
      l.length = 3 :=
  claim_C3_compose_length ⟨[[evA, evB]], 1, none⟩ 1 2 0 (fun _ => mkRat 1 2)
    (buildTable [[evA, evB]] 1) ⟨[[evA, evB]], 1, some (buildTable [[evA, evB]] 1)⟩
    (by decide) (by decide) rfl (by decide)
    (fun _ => ⟨by show (0 : ℚ) ≤ mkRat 1 2; decide, by show mkRat 1 2 < 1; decide⟩)

/-- C4: every row of a table built by `build_tm` sums to exactly 1 (the ℚ
model of the float computation, well within the 1e-9 tolerance): the table
is row-stochastic. -/
theorem claim_C4_row_stochastic (inst : Instrument) (order : Nat) (t : TMdata)
    (inst2 : Instrument) (hok : inst.build_tm order = (.ok t, inst2)) :
    ∀ r ∈ t.rows, (t.cols.map (t.entry r)).sum = 1 := by
  obtain ⟨hne, hlt, ht, _⟩ := build_tm_ok hok
  subst ht
  intro r _
  exact buildTable_row_sum (by omega) r

/-- C4 witness: the row of `evA` in a concrete built table. -/
theorem claim_C4_witness :
    ((buildTable [[evA, evB]] 1).cols.map
      ((buildTable [[evA, evB]] 1).entry (Event.repr evA))).sum = 1 :=
  claim_C4_row_stochastic ⟨[[evA, evB]], 2, none⟩ 1 (buildTable [[evA, evB]] 1)
    ⟨[[evA, evB]], 2, some (buildTable [[evA, evB]] 1)⟩ rfl
    (Event.repr evA) (by decide)

/-- C5 counterexample: with three concrete distinct events and order 1 the
modular wraparound makes E3 a row as well — the rows are not exactly
{E1, E2}; E3 starts a transition to E1 with probability 1. -/
theorem claim_C5_counterexample :
    Event.repr evC ∈ (buildTable [[evA, evB, evC]] 1).rows ∧
    (buildTable [[evA, evB, evC]] 1).rows.length = 3 ∧
    (buildTable [[evA, evB, evC]] 1).entry (Event.repr evC) (Event.repr evA) = 1 := by
  decide

/-- C5 (amended): for a single voice of 3 pairwise-distinct valid events
and order 1, the rows are exactly {E1, E2, E3} — E3 does start a
(wraparound) transition — and each row maps its unique observed successor
with probability 1: E1→E2, E2→E3, E3→E1. -/
theorem claim_C5_scenarioA {e1 e2 e3 : Event}
    (h1 : ValidEvent e1) (h2 : ValidEvent e2) (h3 : ValidEvent e3)
    (h12 : e1 ≠ e2) (h13 : e1 ≠ e3) (h23 : e2 ≠ e3) :
    (buildTable [[e1, e2, e3]] 1).rows =
      [Event.repr e1, Event.repr e2, Event.repr e3] ∧
    (buildTable [[e1, e2, e3]] 1).entry (Event.repr e1) (Event.repr e2) = 1 ∧
    (buildTable [[e1, e2, e3]] 1).entry (Event.repr e2) (Event.repr e3) = 1 ∧
    (buildTable [[e1, e2, e3]] 1).entry (Event.repr e3) (Event.repr e1) = 1 :=
  scenarioA_table h1 h2 h3 h12 h13 h23

/-- C5 witness: the amended scenario at the three concrete events. -/
theorem claim_C5_witness :
    (buildTable [[evA, evB, evC]] 1).rows =
      [Event.repr evA, Event.repr evB, Event.repr evC] ∧
    (buildTable [[evA, evB, evC]] 1).entry (Event.repr evA) (Event.repr evB) = 1 ∧
    (buildTable [[evA, evB, evC]] 1).entry (Event.repr evB) (Event.repr evC) = 1 ∧
    (buildTable [[evA, evB, evC]] 1).entry (Event.repr evC) (Event.repr evA) = 1 :=
  claim_C5_scenarioA (by decide) (by decide) (by decide) (by decide) (by decide)
    (by decide)

/-- C6: in `build_tm`'s normalization, a state whose raw count row sums to
zero ends as a row of all-equal strictly positive entries 1/len(cols)
summing to 1 (the self-recurrence fallback). -/
theorem claim_C6_fallback (V : List (List Event)) (order : Nat) (r : List Char)
    (hz : ((colsList V order).map (rawCount V order r)).sum = 0)
    (hcols : colsList V order ≠ []) :
    (∀ c ∈ colsList V order,
      (buildTable V order).entry r c = (((colsList V order).length : ℚ))⁻¹ ∧
      0 < (buildTable V order).entry r c) ∧
    ((colsList V order).map ((buildTable V order).entry r)).sum = 1 := by
  refine ⟨normEntry_zero_row r hz hcols, ?_⟩
  have hrepl : (colsList V order).map ((buildTable V order).entry r) =
      (colsList V order).map (fun _ => (((colsList V order).length : ℚ))⁻¹) :=
    List.map_congr_left (fun c hc => (normEntry_zero_row r hz hcols c hc).1)
  rw [hrepl, List.map_const', List.sum_replicate, nsmul_eq_mul]
  have hlen : ((colsList V order).length : ℚ) ≠ 0 := by
    have h0 : (colsList V order).length ≠ 0 :=
      fun hh => hcols (List.length_eq_zero.mp hh)
    exact_mod_cast h0
  field_simp

/-- C6 witness: a row key that never occurs as a state has an all-zero raw
row and ends uniform. -/
theorem claim_C6_witness :
    (∀ c ∈ colsList [[evA, evB]] 1,
      (buildTable [[evA, evB]] 1).entry ['z'] c =
        (((colsList [[evA, evB]] 1).length : ℚ))⁻¹ ∧
      0 < (buildTable [[evA, evB]] 1).entry ['z'] c) ∧
    ((colsList [[evA, evB]] 1).map
      ((buildTable [[evA, evB]] 1).entry ['z'])).sum = 1 :=
  claim_C6_fallback [[evA, evB]] 1 ['z'] (by decide) (by decide)

/-- C7: `build_tm` raises when `order >= min_voice_length`, with a message
containing both the order and the minimum voice length, and raises when the
voice selection is empty; in both cases the instrument — its stored table
included — is returned unchanged. -/
theorem claim_C7_errors :
    (∀ (inst : Instrument) (order : Nat), inst.voicesData ≠ [] →
      minLen inst.voicesData ≤ order →
      inst.build_tm order =
        (.error (orderErrMsg order (minLen inst.voicesData)), inst) ∧
      hasSub (natRepr order) (orderErrMsg order (minLen inst.voicesData)) = true ∧
      hasSub (natRepr (minLen inst.voicesData))
        (orderErrMsg order (minLen inst.voicesData)) = true) ∧
    (∀ (inst : Instrument) (order : Nat), inst.voicesData = [] →
      inst.build_tm order = (.error emptyVoicesMsg, inst)) :=
  ⟨build_tm_order_error, build_tm_empty_error⟩

/-- C7 witness: a one-event voice with order 1, and an empty selection. -/
theorem claim_C7_witness :
    (Instrument.build_tm ⟨[[evA]], 1, none⟩ 1 =
      (.error (orderErrMsg 1 (minLen [[evA]])), ⟨[[evA]], 1, none⟩) ∧
      hasSub (natRepr 1) (orderErrMsg 1 (minLen [[evA]])) = true ∧
      hasSub (natRepr (minLen [[evA]])) (orderErrMsg 1 (minLen [[evA]])) = true) ∧
    Instrument.build_tm ⟨[], 1, none⟩ 1 = (.error emptyVoicesMsg, ⟨[], 1, none⟩) :=
  ⟨claim_C7_errors.1 ⟨[[evA]], 1, none⟩ 1 (by decide) (by decide),
    claim_C7_errors.2 ⟨[], 1, none⟩ 1 rfl⟩

/-- C8: the initial draw of `compose` is `randint(0, len(columns) - 1)` but
indexes the ROW labels; for the corpus [A, A, B] with order 2 the built
table has 3 rows and only 2 columns, so the third row key is never a
possible seed — the spec's "uniform over all row keys" fails. -/
theorem claim_C8_init_range :
    (buildTable [[evA, evA, evB]] 2).rows.length = 3 ∧
    composeInitRange (buildTable [[evA, evA, evB]] 2) = 2 ∧
    some ((buildTable [[evA, evA, evB]] 2).rows.getD 2 []) ∉
      composeInitCandidates (buildTable [[evA, evA, evB]] 2) := by decide

/-- C9 counterexample: the note letter is never validated — a `Z` note
decodes successfully, so "a letter outside {A..G, R} is rejected" (and
"these are exactly the rejected shapes") is false. -/
theorem claim_C9_counterexample :
    Event.from_string (String.toList "(F,4)Z3|>>1/2|None") =
      some ⟨[⟨['F'], 4, ['Z'], [], ['3'], []⟩], mkRat 1 2, none⟩ := by decide

/-- C9 (amended): decoding fails on every string without the `>>`
separator, on every string whose timing segment (after the last `>>`) lacks
a `|`, and on every string with zero notes; but a note letter outside
{A..G, R} is NOT rejected. -/
theorem claim_C9_failures :
    (∀ s : List Char, hasGG s = false → Event.from_string s = none) ∧
    (∀ s nb tb : List Char, pyRPartGG s = some (nb, tb) → '|' ∉ tb →
      Event.from_string s = none) ∧
    (∀ s nb tb : List Char, pyRPartGG s = some (nb, tb) →
      (pySplit '>' nb).filter (fun n => n ≠ []) = [] →
      Event.from_string s = none) ∧
    Event.from_string (String.toList "(F,4)Z3|>>1/2|None") ≠ none :=
  ⟨fun _ h => from_string_none_of_no_sep h,
   fun _ _ _ h1 h2 => from_string_none_of_no_bar h1 h2,
   fun _ _ _ h1 h2 => from_string_none_of_no_notes h1 h2,
   by decide⟩

/-- C9 witness: the three failure families at concrete inputs. -/
theorem claim_C9_witness :
    Event.from_string (String.toList "abc") = none ∧
    Event.from_string (String.toList "a>>12") = none ∧
    Event.from_string (String.toList ">>1/2|None") = none :=
  ⟨claim_C9_failures.1 _ (by decide),
   claim_C9_failures.2.1 _ (String.toList "a") (String.toList "12")
     (by decide) (by decide),
   claim_C9_failures.2.2.1 _ [] (String.toList "1/2|None")
     (by decide) (by decide)⟩

/-- C10: when the stored table is empty, `compose` rebuilds with
`build_tm`'s default order of 1 — the configured `mc_order` is never
passed: the output is independent of `mc_order`, the table rebuilt and
stored is the order-1 table, and order-1 and order-2 tables genuinely
differ. -/
theorem claim_C10_default_order :
    (∀ (V : List (List Event)) (o1 o2 n r : Nat) (us : Nat → ℚ),
      (Instrument.composeRun ⟨V, o1, none⟩ n r us).1 =
      (Instrument.composeRun ⟨V, o2, none⟩ n r us).1) ∧
    (∀ (V : List (List Event)) (o n r : Nat) (us : Nat → ℚ),
      V ≠ [] → 1 < minLen V → (colsList V 1).length ≠ 0 →
      (Instrument.composeRun ⟨V, o, none⟩ n r us).1 =
        compose (buildTable V 1) n r us ∧
      (Instrument.composeRun ⟨V, o, none⟩ n r us).2.tm =
        some (buildTable V 1)) ∧
    (buildTable [[evA, evA, evB]] 1).rows ≠ (buildTable [[evA, evA, evB]] 2).rows :=
  ⟨composeRun_ignores_mc_order, composeRun_rebuild_order_one, by decide⟩

/-- C10 witness: an instrument configured with mc_order 5 and an empty
table rebuilds with order 1. -/
theorem claim_C10_witness :
    (Instrument.composeRun ⟨[[evA, evA, evB]], 5, none⟩ 1 0
      (fun _ => mkRat 1 2)).1 =
      compose (buildTable [[evA, evA, evB]] 1) 1 0 (fun _ => mkRat 1 2) ∧
    (Instrument.composeRun ⟨[[evA, evA, evB]], 5, none⟩ 1 0
      (fun _ => mkRat 1 2)).2.tm = some (buildTable [[evA, evA, evB]] 1) :=
  claim_C10_default_order.2.1 [[evA, evA, evB]] 5 1 0 (fun _ => mkRat 1 2)
    (by decide) (by decide) (by decide)

end ConcreteEvaluation
